import Mathlib

/-!
# Verification of the `wicked` contraction engine

A shallow embedding, in Lean 4, of the contraction engine of the `wicked`
symbolic-algebra library (second-quantized Wick contractions):

* `src/wicked/diagrams/wick_theorem.cc`
* `src/wicked/diagrams/wick_theorem_process_contractions.cc`
* `src/wicked/diagrams/diag_vertex.h`
* `src/src/diagrams/wdiag_operator_sum.cc`, `src/src/diagrams/wdiag_vertex.h`

C++ `int` counts are modelled by `Nat` (all leg counts are non-negative; the
only subtraction sites check compatibility first, or zero the accumulated
factor before a count could go negative), `scalar_t` (exact rational) by `Rat`,
`std::string` by `String` (both compare lexicographically on their character
sequences), and `std::map` by association lists with unique keys.  Helper code
whose source file is not part of the repository subset (e.g. `combinatorics.cc`,
`diag_vertex.cc`) is modelled from the specification; each such definition is
marked `Modelled from the spec:` in its doc comment.
-/

namespace Wicked

/-- The kind of an orbital space (`orbital_space.h`, spec section 3):
occupied, unoccupied or general. -/
inductive SpaceType where
  | Occupied : SpaceType
  | Unoccupied : SpaceType
  | General : SpaceType
deriving DecidableEq

/-- The process-wide orbital space registry `osi` is modelled by the list of
space kinds; `num_spaces` is its length and `space_type(s)` is the `s`-th
entry. -/
abbrev OSI : Type := List SpaceType

/-- `osi->num_spaces()`. -/
def OSI.num_spaces (osi : OSI) : ℕ := osi.length

/-- `osi->space_type(s)`.  (Only called with `s < num_spaces`; the default is
irrelevant.) -/
def OSI.space_type (osi : OSI) (s : ℕ) : SpaceType := osi.getD s SpaceType.General

/-- `DiagVertex` (`diag_vertex.h`): per-space creation/annihilation leg counts
for one operator position, stored as a fixed array over `max_spaces_ = 8`
spaces of `(cre, ann)` pairs. -/
def DiagVertex : Type := Fin 8 → ℕ × ℕ

instance : DecidableEq DiagVertex :=
  inferInstanceAs (DecidableEq (Fin 8 → ℕ × ℕ))

/-- The zero vertex (default constructor: all counts zero). -/
def DiagVertex.zero : DiagVertex := fun _ => (0, 0)

/-- `DiagVertex::cre(space)`. -/
def DiagVertex.cre (v : DiagVertex) (s : ℕ) : ℕ :=
  if h : s < 8 then (v ⟨s, h⟩).1 else 0

/-- `DiagVertex::ann(space)`. -/
def DiagVertex.ann (v : DiagVertex) (s : ℕ) : ℕ :=
  if h : s < 8 then (v ⟨s, h⟩).2 else 0

/-- `DiagVertex::set_cre(space, value)`. -/
def DiagVertex.set_cre (v : DiagVertex) (s : ℕ) (value : ℕ) : DiagVertex :=
  fun i => if i.val = s then (value, (v i).2) else v i

/-- `DiagVertex::set_ann(space, value)`. -/
def DiagVertex.set_ann (v : DiagVertex) (s : ℕ) (value : ℕ) : DiagVertex :=
  fun i => if i.val = s then ((v i).1, value) else v i

/-- `DiagVertex::rank()`: sum of creation plus annihilation counts. -/
def DiagVertex.rank (v : DiagVertex) : ℕ :=
  ∑ i : Fin 8, ((v i).1 + (v i).2)

/-- `DiagVertex::operator+=`: componentwise addition. -/
def DiagVertex.add (v w : DiagVertex) : DiagVertex :=
  fun i => ((v i).1 + (w i).1, (v i).2 + (w i).2)

/-- `DiagVertex::operator-=`: componentwise subtraction (all call sites either
check compatibility first or only use the result after the accumulated factor
has already been zeroed, so truncated `Nat` subtraction is faithful). -/
def DiagVertex.sub (v w : DiagVertex) : DiagVertex :=
  fun i => ((v i).1 - (w i).1, (v i).2 - (w i).2)

/-- Componentwise order on vertices (used to state leg-conservation claims). -/
def DiagVertex.le (v w : DiagVertex) : Prop :=
  ∀ i : Fin 8, (v i).1 ≤ (w i).1 ∧ (v i).2 ≤ (w i).2

instance (v w : DiagVertex) : Decidable (DiagVertex.le v w) := by
  unfold DiagVertex.le; infer_instance

/-- The vertex as the list of its eight `(cre, ann)` pairs, in space order. -/
def DiagVertex.toList (v : DiagVertex) : List (ℕ × ℕ) :=
  (List.finRange 8).map v

/-- Build a vertex from a list of `(cre, ann)` pairs (zero-padded), matching
the `DiagVertex(cre, ann)` constructor. -/
def DiagVertex.ofList (pairs : List (ℕ × ℕ)) : DiagVertex :=
  fun i => pairs.getD i.val (0, 0)

/-- `DiagOperator` (`diag_operator.h`): label, scalar factor, and a vertex. -/
structure DiagOperator where
  label : String
  factor : ℚ
  vertex : DiagVertex
deriving DecidableEq

/-- `DiagOperator::cre(space)`. -/
def DiagOperator.cre (op : DiagOperator) (s : ℕ) : ℕ := op.vertex.cre s

/-- `DiagOperator::ann(space)`. -/
def DiagOperator.ann (op : DiagOperator) (s : ℕ) : ℕ := op.vertex.ann s

/-- `DiagOperator::num_ops()` / `rank()`: total number of sqop legs. -/
def DiagOperator.num_ops (op : DiagOperator) : ℕ := op.vertex.rank

/-- `sum_num_ops` / `vertices_rank`: total rank of a vector of vertices. -/
def vertices_rank (vertices : List DiagVertex) : ℕ :=
  (vertices.map DiagVertex.rank).sum

/-- `operators_rank` / `sum_num_ops(ops)`: total rank of an operator string. -/
def operators_rank (ops : List DiagOperator) : ℕ :=
  (ops.map DiagOperator.num_ops).sum

/-! ## `WDiagOperatorSum` (`src/src/diagrams/wdiag_operator_sum.cc`) -/

/-- `WDiagOperator` (legacy `src/src` layer).  Its definition file is not part
of the source subset; modelled from the spec: an operator is a label, a scalar
factor and a vertex (`WDiagVertex` stores a vector of `(cre, ann)` pairs). -/
structure WDiagOperator where
  label : String
  factor : ℚ
  vertex : List (ℕ × ℕ)
deriving DecidableEq

/-- Lookup in an association list keyed by operator strings (models
`std::map::find`). -/
def alLookup (k : List WDiagOperator) :
    List (List WDiagOperator × ℚ) → Option ℚ
  | [] => none
  | (k', c) :: rest => if k' = k then some c else alLookup k rest

/-- Replace the value stored at key `k` (models `search->second += factor`
updating the mapped value in place). -/
def alUpdate (k : List WDiagOperator) (c : ℚ) :
    List (List WDiagOperator × ℚ) → List (List WDiagOperator × ℚ)
  | [] => []
  | (k', c') :: rest =>
    if k' = k then (k', c) :: rest else (k', c') :: alUpdate k c rest

/-- Erase the entry stored at key `k` (models `sum_.erase(search)`). -/
def alErase (k : List WDiagOperator) :
    List (List WDiagOperator × ℚ) → List (List WDiagOperator × ℚ)
  | [] => []
  | (k', c') :: rest =>
    if k' = k then rest else (k', c') :: alErase k rest

/-- `WDiagOperatorSum`: a map from operator strings to scalar coefficients
(`std::map<std::vector<WDiagOperator>, scalar_t>` as an association list). -/
structure WDiagOperatorSum where
  sum : List (List WDiagOperator × ℚ)

/-- `WDiagOperatorSum::add(vec_dop, factor)`
(`src/src/diagrams/wdiag_operator_sum.cc`, lines 10-23): if the key is found,
add `factor` to the stored coefficient and erase the entry if the updated
coefficient is zero; otherwise insert the pair unconditionally. -/
def WDiagOperatorSum.add (S : WDiagOperatorSum) (vec_dop : List WDiagOperator)
    (factor : ℚ) : WDiagOperatorSum :=
  match alLookup vec_dop S.sum with
  | some c =>
    if c + factor = 0 then ⟨alErase vec_dop S.sum⟩
    else ⟨alUpdate vec_dop (c + factor) S.sum⟩
  | none => ⟨S.sum ++ [(vec_dop, factor)]⟩

/-! ## Elementary contractions
(`WickTheorem::generate_elementary_contractions`, `wick_theorem.cc` 74-238) -/

/-- Placeholder operator used for out-of-range `ops[i]` accesses (never reached
on the index ranges the code uses). -/
def dummyOp : DiagOperator := ⟨"", 1, DiagVertex.zero⟩

/-- `ops[i]`. -/
def getOp (ops : List DiagOperator) (i : ℕ) : DiagOperator := ops.getD i dummyOp

/-- The elementary contraction with one cre-leg on position `cpos` and one
ann-leg on position `apos` in space `s`
(`new_contr[c].set_cre(s, 1); new_contr[a].set_ann(s, 1)` on a zero vector of
length `nops`; the two positions are always distinct at the call sites). -/
def mkPairContraction (nops s cpos apos : ℕ) : List DiagVertex :=
  (List.range nops).map (fun i =>
    if i = cpos then DiagVertex.zero.set_cre s 1
    else if i = apos then DiagVertex.zero.set_ann s 1
    else DiagVertex.zero)

/-- Occupied-space block: for each pair `c < a`, emit a contraction whenever
`ops[c].cre(s) * ops[a].ann(s) > 0` (`wick_theorem.cc` 109-123). -/
def occupiedBlock (ops : List DiagOperator) (s : ℕ) : List (List DiagVertex) :=
  let nops := ops.length
  (List.range nops).flatMap (fun c =>
    ((List.range nops).drop (c + 1)).flatMap (fun a =>
      if 0 < (getOp ops c).cre s * (getOp ops a).ann s then
        [mkPairContraction nops s c a]
      else []))

/-- Unoccupied-space block: for each pair `a < c`, emit a contraction whenever
`ops[c].cre(s) * ops[a].ann(s) > 0` (`wick_theorem.cc` 128-142); the ann-leg
sits on the earlier position `a`, the cre-leg on the later position `c`. -/
def unoccupiedBlock (ops : List DiagOperator) (s : ℕ) :
    List (List DiagVertex) :=
  let nops := ops.length
  (List.range nops).flatMap (fun a =>
    ((List.range nops).drop (a + 1)).flatMap (fun c =>
      if 0 < (getOp ops c).cre s * (getOp ops a).ann s then
        [mkPairContraction nops s c a]
      else []))

/-- Modelled from the spec: `integer_partitions(k, n)` followed by the
`next_permutation` loop (`wick_theorem.cc` 163-194) enumerates every list of
`n` non-negative integers summing to `k` exactly once ("integer compositions
of k into N non-negative parts", spec section 4.1).  The enumeration order
differs from the C++ one; no claim depends on the order within a space
block. -/
def compositions : ℕ → ℕ → List (List ℕ)
  | k, 0 => if k = 0 then [[]] else []
  | k, n + 1 =>
    (List.range (k + 1)).flatMap
      (fun x => (compositions (k - x) n).map (fun t => x :: t))

/-- The general-space elementary contraction with cre-legs `cre_legs` and
ann-legs `ann_legs` (`new_contr[A].set_cre(s, cre_legs[A]);
new_contr[A].set_ann(s, ann_legs[A])`, `wick_theorem.cc` 222-226). -/
def mkGeneralContraction (s : ℕ) (cre_legs ann_legs : List ℕ) :
    List DiagVertex :=
  List.zipWith
    (fun c a => (DiagVertex.zero.set_cre s c).set_ann s a) cre_legs ann_legs

/-- Number of operator positions carrying at least one leg
(`nops_contracted`, `wick_theorem.cc` 214-217). -/
def numTouchedPositions (nops : ℕ) (cre_legs ann_legs : List ℕ) : ℕ :=
  ((List.range nops).filter
    (fun A => 0 < cre_legs.getD A 0 + ann_legs.getD A 0)).length

/-- `sumcre` for space `s`: total number of creation legs
(`wick_theorem.cc` 150-155). -/
def sumCre (ops : List DiagOperator) (s : ℕ) : ℕ :=
  ((List.range ops.length).map (fun A => (getOp ops A).cre s)).sum

/-- `sumann` for space `s`: total number of annihilation legs
(`wick_theorem.cc` 150-155). -/
def sumAnn (ops : List DiagOperator) (s : ℕ) : ℕ :=
  ((List.range ops.length).map (fun A => (getOp ops A).ann s)).sum

/-- General-space block (`wick_theorem.cc` 148-235): for each
`half_legs = k ∈ [1, min(Σcre, Σann, maxcumulant)]`, take the Cartesian
product of the capacity-compatible compositions of `k` for cre-legs and for
ann-legs, skipping pairs touching fewer than 2 positions. -/
def generalBlock (K : ℕ) (ops : List DiagOperator) (s : ℕ) :
    List (List DiagVertex) :=
  let nops := ops.length
  let max_half_legs := min (min (sumCre ops s) (sumAnn ops s)) K
  (List.range max_half_legs).flatMap (fun h =>
    let half_legs := h + 1
    let comps := compositions half_legs nops
    let cre_legs_vec := comps.filter
      (fun l => (List.range nops).all (fun A => l.getD A 0 ≤ (getOp ops A).cre s))
    let ann_legs_vec := comps.filter
      (fun l => (List.range nops).all (fun A => l.getD A 0 ≤ (getOp ops A).ann s))
    cre_legs_vec.flatMap (fun cre_legs =>
      ann_legs_vec.flatMap (fun ann_legs =>
        if 2 ≤ numTouchedPositions nops cre_legs ann_legs then
          [mkGeneralContraction s cre_legs ann_legs]
        else [])))

/-- The per-space block of `generate_elementary_contractions`: the three
sequential `if` statements on the space kind (`wick_theorem.cc` 109-235) are
mutually exclusive, i.e. a dispatch on `space_type(s)`. -/
def spaceBlock (osi : OSI) (K : ℕ) (ops : List DiagOperator) (s : ℕ) :
    List (List DiagVertex) :=
  match osi.space_type s with
  | SpaceType.Occupied => occupiedBlock ops s
  | SpaceType.Unoccupied => unoccupiedBlock ops s
  | SpaceType.General => generalBlock K ops s

/-- `WickTheorem::generate_elementary_contractions(ops)`
(`wick_theorem.cc` 74-238): loop over spaces, dispatch on the space kind.
`K` is the `maxcumulant_` member. -/
def generate_elementary_contractions (osi : OSI) (K : ℕ)
    (ops : List DiagOperator) : List (List DiagVertex) :=
  (List.range osi.num_spaces).flatMap (spaceBlock osi K ops)

/-- An elementary contraction "touches" space `s` when some position carries a
leg in `s`. -/
def touchesSpace (contr : List DiagVertex) (s : ℕ) : Prop :=
  ∃ v ∈ contr, v.cre s + v.ann s ≠ 0

/-- All legs of the contraction live in space `s`. -/
def supportedOn (contr : List DiagVertex) (s : ℕ) : Prop :=
  ∀ v ∈ contr, ∀ t, t ≠ s → v.cre t = 0 ∧ v.ann t = 0

/-! ## Composite contractions by backtracking
(`wick_theorem.cc` 430-458, 566-687) -/

/-- The compatibility test of `construct_candidates` (`wick_theorem.cc`
600-617): an elementary contraction fits when, for every operator position
and every space, its cre- and ann-legs do not exceed the free legs. -/
def compatibleContr (S : ℕ) (free : List DiagVertex)
    (el_contr : List DiagVertex) : Bool :=
  (List.range free.length).all (fun A =>
    (List.range S).all (fun s =>
      ((el_contr.getD A DiagVertex.zero).cre s
          ≤ (free.getD A DiagVertex.zero).cre s) &&
      ((el_contr.getD A DiagVertex.zero).ann s
          ≤ (free.getD A DiagVertex.zero).ann s)))

/-- `WickTheorem::construct_candidates` (`wick_theorem.cc` 587-623): all
elementary-contraction indices from `minc` (the last index on the stack, `0`
for an empty stack) onwards that are compatible with the free legs. -/
def construct_candidates (S : ℕ) (el_contr_vec : List (List DiagVertex))
    (stack : List ℕ) (free : List DiagVertex) : List ℕ :=
  let minc := stack.getLast?.getD 0
  (List.range el_contr_vec.length).filter (fun c =>
    decide (minc ≤ c) && compatibleContr S free (el_contr_vec.getD c []))

/-- `WickTheorem::make_move` (`wick_theorem.cc` 625-644): subtract the chosen
elementary contraction from the free legs, position by position.  (The
functional embedding never needs `unmake_move`: each branch gets its own
copy.) -/
def freeSub (free : List DiagVertex) (el : List DiagVertex) :
    List DiagVertex :=
  (List.range free.length).map (fun A =>
    (free.getD A DiagVertex.zero).sub (el.getD A DiagVertex.zero))

/-- `WickTheorem::process_contraction` (`wick_theorem.cc` 667-687): the
composite on the stack is recorded exactly when the total free rank lies in
`[minrank, maxrank]`. -/
def process_contraction (stack : List ℕ) (free : List DiagVertex)
    (minrank maxrank : ℤ) : List (List ℕ) :=
  if minrank ≤ (vertices_rank free : ℤ) ∧ (vertices_rank free : ℤ) ≤ maxrank
  then [stack] else []

/-- One node of `generate_contractions_backtrack` (`wick_theorem.cc`
566-585): record the current stack when in the rank band, then descend on
each candidate in ascending order (the C++ `for` loop over candidates is the
`flatMap`, which appends the children's records in the same order).  The C++
recursion needs no explicit bound (each descent strictly shrinks the free
rank because every elementary contraction has rank ≥ 2); the embedding
carries a fuel argument which the top-level call sets high enough for that
situation. -/
def btNode (S : ℕ) (el : List (List DiagVertex)) (minrank maxrank : ℤ) :
    ℕ → List ℕ → List DiagVertex → List (List ℕ)
  | 0, _, _ => []
  | fuel + 1, stack, free =>
    process_contraction stack free minrank maxrank ++
      (construct_candidates S el stack free).flatMap
        (fun c => btNode S el minrank maxrank fuel (stack ++ [c])
          (freeSub free (el.getD c [])))

/-- `WickTheorem::generate_composite_contractions` (`wick_theorem.cc`
430-458): run the backtracking from the operator vertices with an empty
stack.  The fuel `operators_rank ops + 1` never runs out when every
elementary contraction has positive rank (as all generated ones do). -/
def generate_composite_contractions (osi : OSI)
    (el : List (List DiagVertex)) (ops : List DiagOperator)
    (minrank maxrank : ℤ) : List (List ℕ) :=
  btNode osi.num_spaces el minrank maxrank (operators_rank ops + 1) []
    (ops.map DiagOperator.vertex)

/-- The free vertices left after applying the composite `cs` in order. -/
def freeAfter (el : List (List DiagVertex)) (init : List DiagVertex)
    (cs : List ℕ) : List DiagVertex :=
  cs.foldl (fun fv c => freeSub fv (el.getD c [])) init

/-- The componentwise sum, at operator position `A`, of the elementary
contractions named by the composite `cs` (with multiplicity). -/
def stackVertexSum (el : List (List DiagVertex)) (cs : List ℕ) (A : ℕ) :
    DiagVertex :=
  (cs.map (fun c => (el.getD c []).getD A DiagVertex.zero)).foldr
    DiagVertex.add DiagVertex.zero

/-- A composite path is valid from `free` when each successive elementary
index is in range and compatible with the free legs at that point (exactly
the candidates admitted by `construct_candidates`). -/
def pathValid (S : ℕ) (el : List (List DiagVertex)) :
    List DiagVertex → List ℕ → Prop
  | _, [] => True
  | free, c :: t =>
    (c < el.length ∧ compatibleContr S free (el.getD c []) = true) ∧
      pathValid S el (freeSub free (el.getD c [])) t

/-! ## Canonicalization
(`WickTheorem::canonicalize_contraction`,
`wick_theorem_process_contractions.cc` 96-242; the copy in
`wick_theorem.cc` 288-428 is the same algorithm with a 16-bit connectivity
mask and `exit(1)` instead of `throw`) -/

/-- A C++ `std::string`, compared lexicographically character by character,
is modelled as its list of character codes (`List ℕ` compares
lexicographically the same way). -/
def strCodes (s : String) : List ℕ := s.data.map Char.toNat

/-- Decimal rendering of a count, as character codes
(`std::to_string`-style). -/
def natCodes (n : ℕ) : List ℕ := (Nat.toDigits 10 n).map Char.toNat

/-- Modelled from the spec: `signature(DiagVertex)` (defined in
`diag_vertex.cc`, which is not in the source subset) renders the per-space
`(cre, ann)` counts of the vertex in space order (spec section 4.3:
"operator labels and per-space (cre,ann) counts"). -/
def DiagVertex.signature (v : DiagVertex) : List ℕ :=
  (List.finRange 8).flatMap (fun i => natCodes (v i).1 ++ natCodes (v i).2)

/-- `contraction_signature(ops, contractions, ops_perm, contr_perm)`
(`wick_theorem_process_contractions.cc` 244-265): operator labels and vertex
signatures under `ops_perm`, then the per-vertex signatures of the
contractions under `(contr_perm, ops_perm)`, concatenated into one
string. -/
def contraction_signature (ops : List DiagOperator)
    (contractions : List (List DiagVertex)) (ops_perm contr_perm : List ℕ) :
    List ℕ :=
  ((List.range ops.length).flatMap (fun i =>
    strCodes (getOp ops (ops_perm.getD i 0)).label ++
      (getOp ops (ops_perm.getD i 0)).vertex.signature)) ++
  ((List.range contractions.length).flatMap (fun i =>
    (List.range ops.length).flatMap (fun j =>
      ((contractions.getD (contr_perm.getD i 0) []).getD
        (ops_perm.getD j 0) DiagVertex.zero).signature)))

/-- Operators `i` and `j` are connected when some elementary contraction of
the composite has legs on both: the loop over the `connections` list
(`wick_theorem_process_contractions.cc` 114-132) sets `conn_mat(i, j) = 1`
exactly for such pairs with `i ≠ j`. -/
def connectedb (el : List (List DiagVertex)) (contraction_vec : List ℕ)
    (i j : ℕ) : Bool :=
  (i != j) && contraction_vec.any (fun c =>
    (((el.getD c []).getD i DiagVertex.zero).rank != 0) &&
    (((el.getD c []).getD j DiagVertex.zero).rank != 0))

/-- A set of operator indices as a machine word (`std::bitset<64>`). -/
def bitMask : List ℕ → ℕ
  | [] => 0
  | x :: rest => 2 ^ x ||| bitMask rest

/-- `left_masks[i]` (`wick_theorem_process_contractions.cc` 134-143): the
set of operators `j < i` connected to `i`. -/
def left_mask (el : List (List DiagVertex)) (contraction_vec : List ℕ)
    (i : ℕ) : ℕ :=
  bitMask ((List.range i).filter (fun j => connectedb el contraction_vec j i))

/-- The mask of operators placed before position `i` of the permutation
(`wick_theorem_process_contractions.cc` 170-176). -/
def i_mask (ops_perm : List ℕ) (i : ℕ) : ℕ :=
  bitMask ((List.range i).map (fun j => ops_perm.getD j 0))

/-- The `allowed` test (`wick_theorem_process_contractions.cc` 169-180):
`(i_mask & left_masks[perm[i]]) == left_masks[perm[i]]` for every
position. -/
def perm_allowed (el : List (List DiagVertex)) (contraction_vec : List ℕ)
    (nops : ℕ) (ops_perm : List ℕ) : Bool :=
  (List.range nops).all (fun i =>
    (i_mask ops_perm i &&&
        left_mask el contraction_vec (ops_perm.getD i 0))
      == left_mask el contraction_vec (ops_perm.getD i 0))

/-- Flattened per-pair encoding of a vertex.  On equal-length vertex
vectors, `<` on the concatenated encodings is exactly the C++ lexicographic
`std::vector<DiagVertex>` comparison with the vertex `operator<` declared in
`diag_vertex.h` (defined in `diag_vertex.cc`, not in the subset; modelled
from the spec: "lexicographic over spaces then cre-before-ann"). -/
def DiagVertex.enc (v : DiagVertex) : List ℕ :=
  (List.finRange 8).flatMap (fun i => [(v i).1, (v i).2])

/-- Encoding of a whole vertex vector. -/
def encVertexList (l : List DiagVertex) : List ℕ := l.flatMap DiagVertex.enc

/-- Sort key of one `sorted_contractions` entry
(`wick_theorem_process_contractions.cc` 188-198): `std::sort` on
`pair<vector<DiagVertex>, int>` compares the vector lexicographically first
and breaks ties on the original index. -/
def sortKey (pc : List DiagVertex) (i : ℕ) : List ℕ := encVertexList pc ++ [i]

/-- The pair order used to sort `sorted_contractions`. -/
def pairLe (x y : List DiagVertex × ℕ) : Prop :=
  sortKey x.1 x.2 ≤ sortKey y.1 y.2

instance (x y : List DiagVertex × ℕ) : Decidable (pairLe x y) := by
  unfold pairLe
  infer_instance

instance : IsTotal (List DiagVertex × ℕ) pairLe := ⟨fun x y => le_total _ _⟩

instance : IsTrans (List DiagVertex × ℕ) pairLe :=
  ⟨fun _ _ _ h1 h2 => le_trans h1 h2⟩

/-- `contractions[i]` permuted by `ops_perm`
(`wick_theorem_process_contractions.cc` 191-196). -/
def permutedContr (contractions : List (List DiagVertex)) (nops : ℕ)
    (ops_perm : List ℕ) (i : ℕ) : List DiagVertex :=
  (List.range nops).map (fun j =>
    (contractions.getD i []).getD (ops_perm.getD j 0) DiagVertex.zero)

/-- The `(permuted contraction, original index)` pairs that get sorted. -/
def contrPairs (contractions : List (List DiagVertex)) (nops : ℕ)
    (ops_perm : List ℕ) : List (List DiagVertex × ℕ) :=
  (List.range contractions.length).map
    (fun i => (permutedContr contractions nops ops_perm i, i))

/-- The contraction permutation determined by `ops_perm`: sort the permuted
contractions (all keys are distinct, so any comparison sort — C++
`std::sort`, here an insertion sort — produces the same list) and read off
the original indices (`wick_theorem_process_contractions.cc` 186-203). -/
def contrPermOf (contractions : List (List DiagVertex)) (nops : ℕ)
    (ops_perm : List ℕ) : List ℕ :=
  ((contrPairs contractions nops ops_perm).insertionSort pairLe).map Prod.snd

/-- One entry of `scores`: the signature together with the operator and
contraction permutations. -/
abbrev Score : Type := List ℕ × List ℕ × List ℕ

/-- Lexicographic comparison of scores: `std::sort` on
`pair<string, pair<vector<int>, vector<int>>>`. -/
def scoreLe (x y : Score) : Prop :=
  x.1 < y.1 ∨ (x.1 = y.1 ∧
    (x.2.1 < y.2.1 ∨ (x.2.1 = y.2.1 ∧ x.2.2 ≤ y.2.2)))

instance (x y : Score) : Decidable (scoreLe x y) := by
  unfold scoreLe
  infer_instance

instance : IsTotal Score scoreLe := by
  constructor
  intro x y
  unfold scoreLe
  rcases lt_trichotomy x.1 y.1 with h | h | h
  · exact Or.inl (Or.inl h)
  · rcases lt_trichotomy x.2.1 y.2.1 with h2 | h2 | h2
    · exact Or.inl (Or.inr ⟨h, Or.inl h2⟩)
    · rcases le_total x.2.2 y.2.2 with h3 | h3
      · exact Or.inl (Or.inr ⟨h, Or.inr ⟨h2, h3⟩⟩)
      · exact Or.inr (Or.inr ⟨h.symm, Or.inr ⟨h2.symm, h3⟩⟩)
    · exact Or.inr (Or.inr ⟨h.symm, Or.inl h2⟩)
  · exact Or.inr (Or.inl h)

instance : IsTrans Score scoreLe := by
  constructor
  intro x y z hxy hyz
  rcases hxy with h1 | ⟨e1, h1⟩
  · rcases hyz with h2 | ⟨e2, h2⟩
    · exact Or.inl (lt_trans h1 h2)
    · exact Or.inl (e2 ▸ h1)
  · rcases hyz with h2 | ⟨e2, h2⟩
    · exact Or.inl (e1 ▸ h2)
    · refine Or.inr ⟨e1.trans e2, ?_⟩
      rcases h1 with h1 | ⟨f1, h1⟩
      · rcases h2 with h2 | ⟨f2, h2⟩
        · exact Or.inl (lt_trans h1 h2)
        · exact Or.inl (f2 ▸ h1)
      · rcases h2 with h2 | ⟨f2, h2⟩
        · exact Or.inl (f1 ▸ h2)
        · exact Or.inr ⟨f1.trans f2, le_trans h1 h2⟩

/-- All ways of inserting `x` into a list (helper for the permutation
enumeration). -/
def insertAll (x : ℕ) : List ℕ → List (List ℕ)
  | [] => [[x]]
  | y :: ys => (x :: y :: ys) :: (insertAll x ys).map (fun l => y :: l)

/-- Every permutation of a list, exactly the set the C++
`next_permutation` loop (`wick_theorem_process_contractions.cc` 162-210)
runs through; only the set matters, since `scores` is sorted afterwards. -/
def allPerms : List ℕ → List (List ℕ)
  | [] => [[]]
  | x :: xs => (allPerms xs).flatMap (insertAll x)

/-- The list of `(signature, ops_perm, contr_perm)` scores over all allowed
operator permutations (`wick_theorem_process_contractions.cc` 159-210). -/
def scoresOf (el : List (List DiagVertex)) (ops : List DiagOperator)
    (contraction_vec : List ℕ) : List Score :=
  let contractions := contraction_vec.map (fun c => el.getD c [])
  let nops := ops.length
  ((allPerms (List.range nops)).filter
    (perm_allowed el contraction_vec nops)).map
    (fun p => (contraction_signature ops contractions p
      (contrPermOf contractions nops p), p, contrPermOf contractions nops p))

/-- `WickTheorem::canonicalize_contraction`
(`wick_theorem_process_contractions.cc` 96-242): refuse operator strings
with an odd-rank operator (the C++ `throw`), otherwise sort the scores of
all allowed operator permutations and return the operators and contraction
copies reordered by the best one.  `scores` can never be empty (the identity
permutation is always allowed), so the `[]` branch — undefined behaviour at
`scores.begin()` in C++ — is unreachable. -/
def canonicalize_contraction (el : List (List DiagVertex))
    (ops : List DiagOperator) (contraction_vec : List ℕ) :
    Except String (List DiagOperator × List (List DiagVertex)) :=
  if ops.any (fun op => op.num_ops % 2 != 0) then
    Except.error "cannot yet handle operators with an odd number of sqops"
  else
    match (scoresOf el ops contraction_vec).insertionSort scoreLe with
    | [] => Except.error "no allowed permutation"
    | best :: _ =>
      Except.ok (best.2.1.map (getOp ops),
        best.2.2.map (fun c =>
          (contraction_vec.map (fun c' => el.getD c' [])).getD c []))

/-- The argument pairs handed to `evaluate_contraction` by
`WickTheorem::process_contractions` (`wick_theorem_process_contractions.cc`
45-94): for each stored composite whose uncontracted rank lies in
`[minrank, maxrank]`, the operator argument is the ORIGINAL `ops` (line 77:
`evaluate_contraction(ops, contractions, factor)`), and the contraction
argument is `canonicalize_contraction(...).second`; the reordered operator
list `.first` is discarded.  A canonicalization error aborts the whole call
(the C++ `throw` propagates). -/
def process_contractions_calls (el : List (List DiagVertex))
    (ops : List DiagOperator) (minrank maxrank : ℤ) :
    List (List ℕ) →
      Except String (List (List DiagOperator × List (List DiagVertex)))
  | [] => Except.ok []
  | cv :: rest =>
    let contr_rank := (cv.map (fun c => vertices_rank (el.getD c []))).sum
    let term_rank : ℤ := (operators_rank ops : ℤ) - (contr_rank : ℤ)
    if minrank ≤ term_rank ∧ term_rank ≤ maxrank then
      match canonicalize_contraction el ops cv with
      | Except.error e => Except.error e
      | Except.ok oc =>
        match process_contractions_calls el ops minrank maxrank rest with
        | Except.error e => Except.error e
        | Except.ok calls => Except.ok ((ops, oc.2) :: calls)
    else process_contractions_calls el ops minrank maxrank rest

instance {ε α : Type} [DecidableEq ε] [DecidableEq α] :
    DecidableEq (Except ε α) := fun a b =>
  match a, b with
  | Except.error e, Except.error e' =>
    if h : e = e' then Decidable.isTrue (by rw [h])
    else Decidable.isFalse (by intro hc; cases hc; exact h rfl)
  | Except.error _, Except.ok _ => Decidable.isFalse (by intro hc; cases hc)
  | Except.ok _, Except.error _ => Decidable.isFalse (by intro hc; cases hc)
  | Except.ok x, Except.ok y =>
    if h : x = y then Decidable.isTrue (by rw [h])
    else Decidable.isFalse (by intro hc; cases hc; exact h rfl)

/-! ## Combinatorial factor
(`WickTheorem::combinatorial_factor`,
`wick_theorem_process_contractions.cc` 562-600; the copy in
`wick_theorem.cc` 987-1025 is identical) -/

/-- Modelled from the spec: `binomial(n, k)` from `combinatorics.h` (not in
the source subset) is the binomial coefficient (spec section 4.5). -/
def binomial (n k : ℕ) : ℕ := Nat.choose n k

/-- The binomials contributed by one contraction against the current free
vertices: the loops over `v < contraction.size()` and `s < num_spaces`
(`wick_theorem_process_contractions.cc` 575-586). -/
def combStepFactor (S : ℕ) (free : List DiagVertex)
    (contraction : List DiagVertex) : ℕ :=
  ((List.range contraction.length).map (fun v =>
    ((List.range S).map (fun s =>
      binomial ((free.getD v DiagVertex.zero).cre s)
          ((contraction.getD v DiagVertex.zero).cre s) *
        binomial ((free.getD v DiagVertex.zero).ann s)
          ((contraction.getD v DiagVertex.zero).ann s))).prod)).prod

/-- `WickTheorem::combinatorial_factor(ops, contractions)`
(`wick_theorem_process_contractions.cc` 562-600): multiply the binomials of
each contraction in order while decrementing the free vertices
(`free_vertices[v] -= vertex`, which is `freeSub` since positions beyond the
contraction subtract zero), then divide by `binomial(count, 1)` for every
distinct contraction value in the `std::map` of counts. -/
def combinatorial_factor (osi : OSI) (ops : List DiagOperator)
    (contractions : List (List DiagVertex)) : ℚ :=
  contractions.dedup.foldl
    (fun f contr => f / (binomial (contractions.count contr) 1 : ℚ))
    (contractions.foldl
      (fun (st : ℚ × List DiagVertex) contraction =>
        (st.1 * (combStepFactor osi.num_spaces st.2 contraction : ℚ),
          freeSub st.2 contraction))
      (1, ops.map DiagOperator.vertex)).1

/-- The claim-side binomial product: binomials of the contractions taken in
order, decrementing the per-position free-leg counters after each one. -/
def claimBinomProd (S : ℕ) : List DiagVertex → List (List DiagVertex) → ℕ
  | _, [] => 1
  | free, c :: rest =>
    combStepFactor S free c * claimBinomProd S (freeSub free c) rest

/-- The product of the multiplicities of the distinct elementary
contractions occurring in the composite. -/
def multiplicityProd (contractions : List (List DiagVertex)) : ℕ :=
  (contractions.dedup.map (fun c => contractions.count c)).prod

/-! ## The contraction evaluator
(`WickTheorem::evaluate_contraction` and `contration_tensors_sqops`,
`wick_theorem_process_contractions.cc` 267-514) -/

/-- `SQOperatorType` (`sqoperator.h`): creation or annihilation. -/
inductive SQOperatorType where
  | Creation : SQOperatorType
  | Annihilation : SQOperatorType
deriving DecidableEq

/-- `Index(space, num)` (`index.h`): an orbital index carrying its space and
a per-space counter value. -/
structure Index where
  space : ℕ
  num : ℕ
deriving DecidableEq

/-- `SQOperator(type, index)` (`sqoperator.h`). -/
structure SQOperator where
  type : SQOperatorType
  index : Index
deriving DecidableEq

/-- Placeholder for out-of-range `sqops[p]` accesses (never reached on the
index ranges the code uses). -/
def dummySQ : SQOperator := ⟨SQOperatorType.Creation, ⟨0, 0⟩⟩

/-- `Tensor(label, lower, upper)` (`tensor.h`); the symmetry argument is
always `SymmetryType::Antisymmetric` here and is omitted. -/
structure Tensor where
  label : String
  lower : List Index
  upper : List Index
deriving DecidableEq

/-- The emission schedule of `contration_tensors_sqops`
(`wick_theorem_process_contractions.cc` 478-514) for one operator: its
creation sqops by ascending space and ascending local slot, then its
annihilation sqops by descending space and descending local slot; each
record is `(is_cre, space, local_slot)` in push order. -/
def opEntries (S : ℕ) (op : DiagOperator) : List (Bool × ℕ × ℕ) :=
  ((List.range S).flatMap (fun s =>
    (List.range (op.cre s)).map (fun c => (true, s, c)))) ++
  ((List.range S).reverse.flatMap (fun s =>
    (List.range (op.ann s)).reverse.map (fun a => (false, s, a))))

/-- All sqop emissions over the operator string, tagged with the emitting
operator position: entry `n` of this list is the `n`-th sqop pushed. -/
def allEntries (S : ℕ) (ops : List DiagOperator) : List (ℕ × Bool × ℕ × ℕ) :=
  (List.range ops.length).flatMap (fun o =>
    (opEntries S (getOp ops o)).map (fun e => (o, e)))

/-- The per-space `index_counter`: each emission consumes the next free
index of its space (`ic.next_index(s)`) and becomes an `SQOperator` of the
recorded kind. -/
def assignIndicesGo : (ℕ → ℕ) → List (ℕ × Bool × ℕ × ℕ) → List (ℕ × SQOperator)
  | _, [] => []
  | ic, (o, iscre, s, _slot) :: rest =>
    (o, ⟨if iscre then SQOperatorType.Creation else SQOperatorType.Annihilation,
        ⟨s, ic s⟩⟩) ::
      assignIndicesGo (fun t => if t = s then ic s + 1 else ic t) rest

/-- The sqop vector built by `contration_tensors_sqops`, with each sqop
tagged by the operator position that emitted it. -/
def taggedSqops (S : ℕ) (ops : List DiagOperator) : List (ℕ × SQOperator) :=
  assignIndicesGo (fun _ => 0) (allEntries S ops)

/-- The key stored in `op_map` for an emission record:
`(op, space, is_cre, local_slot)`. -/
def entryKey (e : ℕ × Bool × ℕ × ℕ) : ℕ × ℕ × Bool × ℕ :=
  (e.1, e.2.2.1, e.2.1, e.2.2.2)

/-- Default emission record. -/
def dummyEntry : ℕ × Bool × ℕ × ℕ := (0, true, 0, 0)

/-- `op_map`: each sqop position `n` is stored under the key of the
emission that produced it (`op_map[key] = n`; keys are distinct by
construction). -/
def opMapOf (S : ℕ) (ops : List DiagOperator) :
    List ((ℕ × ℕ × Bool × ℕ) × ℕ) :=
  (List.range (allEntries S ops).length).map (fun n =>
    (entryKey ((allEntries S ops).getD n dummyEntry), n))

/-- `std::map` lookup on an association list with distinct keys. -/
def lookupKey {α : Type} [DecidableEq α] (k : α) :
    List (α × ℕ) → Option ℕ
  | [] => none
  | (k', n) :: rest => if k' = k then some n else lookupKey k rest

/-- The operator tensors of `contration_tensors_sqops`: for operator `o`,
`lower` collects its creation indices in emission order and `upper` its
annihilation indices reversed (undoing the descending emission order). -/
def operatorTensors (S : ℕ) (ops : List DiagOperator) : List Tensor :=
  (List.range ops.length).map (fun o =>
    ⟨(getOp ops o).label,
      (((taggedSqops S ops).filter (fun e =>
        e.1 == o && e.2.type == SQOperatorType.Creation)).map
          (fun e => e.2.index)),
      ((((taggedSqops S ops).filter (fun e =>
        e.1 == o && e.2.type == SQOperatorType.Annihilation)).map
          (fun e => e.2.index)).reverse)⟩)

/-- Modelled from the spec: `spaces_in_vertices(vec)[0]` (`diag_vertex.cc`
is not in the source subset) is the first space on which the vertices have
any legs (spec step 2: "identify its single touched space s"); `none` when
there are no legs at all (the code would crash on the empty list). -/
def vertices_space (vec : List DiagVertex) : Option ℕ :=
  (List.range 8).find? (fun s =>
    vec.any (fun v => decide (v.cre s + v.ann s ≠ 0)))

/-- The inner slot loop of `vertex_vec_to_pos`: look up the keys
`(v, s, creation, off + i)` for `i = 0, …, nops-1` in push order; a missing
key is the `exit(1)` branch (`none`). -/
def collectLookups (opMap : List ((ℕ × ℕ × Bool × ℕ) × ℕ)) (v s : ℕ)
    (creation : Bool) : ℕ → ℕ → Option (List ℕ)
  | _, 0 => some []
  | off, m + 1 =>
    match lookupKey (v, s, creation, off) opMap with
    | none => none
    | some p =>
      match collectLookups opMap v s creation (off + 1) m with
      | none => none
      | some ps => some (p :: ps)

/-- The position loop of `vertex_vec_to_pos`
(`wick_theorem_process_contractions.cc` 518-560) over the listed positions,
threading the `ops_offset` state. -/
def vvtpGo (opMap : List ((ℕ × ℕ × Bool × ℕ) × ℕ)) (s : ℕ) (creation : Bool)
    (vertex_vec : List DiagVertex) :
    List ℕ → List DiagVertex → Option (List ℕ × List DiagVertex)
  | [], offsets => some ([], offsets)
  | v :: vs, offsets =>
    match collectLookups opMap v s creation
        (if creation then (offsets.getD v DiagVertex.zero).cre s
          else (offsets.getD v DiagVertex.zero).ann s)
        (if creation then (vertex_vec.getD v DiagVertex.zero).cre s
          else (vertex_vec.getD v DiagVertex.zero).ann s) with
    | none => none
    | some ps =>
      match vvtpGo opMap s creation vertex_vec vs
          (offsets.set v
            (if creation then
              (offsets.getD v DiagVertex.zero).set_cre s
                ((offsets.getD v DiagVertex.zero).cre s +
                  (vertex_vec.getD v DiagVertex.zero).cre s)
            else
              (offsets.getD v DiagVertex.zero).set_ann s
                ((offsets.getD v DiagVertex.zero).ann s +
                  (vertex_vec.getD v DiagVertex.zero).ann s))) with
      | none => none
      | some (rest, final) => some (ps ++ rest, final)

/-- `WickTheorem::vertex_vec_to_pos(vertex_vec, ops_offset, op_map, creation)`:
collect the sqop positions of the next `vertex_vec[v].cre/ann(s)` legs of
every position `v`, advancing `ops_offset` as it goes; `none` models the
`exit(1)` on a missing key.  (`s` is passed in rather than recomputed: the
function recomputes `spaces_in_vertices(vertex_vec)[0]`, the same value the
caller already holds.) -/
def vertex_vec_to_pos (opMap : List ((ℕ × ℕ × Bool × ℕ) × ℕ))
    (vertex_vec : List DiagVertex) (offsets : List DiagVertex)
    (creation : Bool) (s : ℕ) : Option (List ℕ × List DiagVertex) :=
  vvtpGo opMap s creation vertex_vec (List.range vertex_vec.length) offsets

/-- `sign_order[c] = sorted_position++` over a list of sqop positions. -/
def assignPositions (so : List ℤ) (sp : ℕ) : List ℕ → List ℤ × ℕ
  | [] => (so, sp)
  | c :: cs => assignPositions (so.set c (sp : ℤ)) (sp + 1) cs

/-- The per-contraction data relevant to the sign and the cumulant labels:
touched space, rank, creation and annihilation sqop positions, and the
cumulant label (`none` for the pair contractions, which add no tensor). -/
structure ContrRec where
  space : ℕ
  rank : ℕ
  posCre : List ℕ
  posAnn : List ℕ
  label : Option String
deriving DecidableEq

/-- The state threaded through the contraction loop of
`evaluate_contraction` (step 2). -/
structure EvalState where
  opsOffset : List DiagVertex
  signOrder : List ℤ
  sortedPos : ℕ
  nContracted : ℕ
  unoccSign : ℤ
  tensors : List Tensor
  reindex : List (Index × Index)
  trace : List ContrRec

/-- One iteration of the contraction loop of `evaluate_contraction`
(`wick_theorem_process_contractions.cc` 304-400): find the touched space and
the rank, locate the creation then the annihilation sqops, assign them the
next sorted positions, and branch on the space kind (occupied pair reindexes
`ann → cre`; unoccupied pair reindexes `cre → ann` and flips
`unoccupied_sign`; general adds a cumulant tensor labelled `gamma1`/`eta1`
for rank 2 — flipping `unoccupied_sign` in the `eta1` branch — and
`lambda(rank/2)` otherwise).  The reindex map is kept as the list of
insertions (all inserted keys are distinct in the pipeline). -/
def evalContrStep (osi : OSI) (opMap : List ((ℕ × ℕ × Bool × ℕ) × ℕ))
    (sqops : List SQOperator) (st : EvalState)
    (contraction : List DiagVertex) : Option EvalState :=
  match vertices_space contraction with
  | none => none
  | some s =>
    match vertex_vec_to_pos opMap contraction st.opsOffset true s with
    | none => none
    | some (posCre, off1) =>
      match vertex_vec_to_pos opMap contraction off1 false s with
      | none => none
      | some (posAnn, off2) =>
        match osi.space_type s with
        | SpaceType.Occupied =>
          some ⟨off2,
            (assignPositions
              (assignPositions st.signOrder st.sortedPos posCre).1
              (assignPositions st.signOrder st.sortedPos posCre).2 posAnn).1,
            (assignPositions
              (assignPositions st.signOrder st.sortedPos posCre).1
              (assignPositions st.signOrder st.sortedPos posCre).2 posAnn).2,
            st.nContracted + vertices_rank contraction, st.unoccSign,
            st.tensors,
            st.reindex ++ [((sqops.getD posAnn.headI dummySQ).index,
              (sqops.getD posCre.headI dummySQ).index)],
            st.trace ++
              [⟨s, vertices_rank contraction, posCre, posAnn, none⟩]⟩
        | SpaceType.Unoccupied =>
          some ⟨off2,
            (assignPositions
              (assignPositions st.signOrder st.sortedPos posCre).1
              (assignPositions st.signOrder st.sortedPos posCre).2 posAnn).1,
            (assignPositions
              (assignPositions st.signOrder st.sortedPos posCre).1
              (assignPositions st.signOrder st.sortedPos posCre).2 posAnn).2,
            st.nContracted + vertices_rank contraction, -st.unoccSign,
            st.tensors,
            st.reindex ++ [((sqops.getD posCre.headI dummySQ).index,
              (sqops.getD posAnn.headI dummySQ).index)],
            st.trace ++
              [⟨s, vertices_rank contraction, posCre, posAnn, none⟩]⟩
        | SpaceType.General =>
          some ⟨off2,
            (assignPositions
              (assignPositions st.signOrder st.sortedPos posCre).1
              (assignPositions st.signOrder st.sortedPos posCre).2 posAnn).1,
            (assignPositions
              (assignPositions st.signOrder st.sortedPos posCre).1
              (assignPositions st.signOrder st.sortedPos posCre).2 posAnn).2,
            st.nContracted + vertices_rank contraction,
            (if vertices_rank contraction = 2 ∧
                ¬(posCre.headI < posAnn.headI)
              then -st.unoccSign else st.unoccSign),
            st.tensors ++
              [⟨(if vertices_rank contraction = 2 then
                  (if posCre.headI < posAnn.headI then "gamma1" else "eta1")
                else "lambda" ++ toString (vertices_rank contraction / 2)),
                (posAnn.map (fun a => (sqops.getD a dummySQ).index)).reverse,
                posCre.map (fun c => (sqops.getD c dummySQ).index)⟩],
            st.reindex,
            st.trace ++ [⟨s, vertices_rank contraction, posCre, posAnn,
              some (if vertices_rank contraction = 2 then
                  (if posCre.headI < posAnn.headI then "gamma1" else "eta1")
                else "lambda" ++ toString (vertices_rank contraction / 2))⟩]⟩

/-- The sweep order of step 3 of `evaluate_contraction`
(`wick_theorem_process_contractions.cc` 404-417): creations before
annihilations, by ascending space, then by sqop position. -/
def leftoverSweep (S n : ℕ) : List (SQOperatorType × ℕ × ℕ) :=
  [SQOperatorType.Creation, SQOperatorType.Annihilation].flatMap (fun ty =>
    (List.range S).flatMap (fun s =>
      (List.range n).map (fun i => (ty, s, i))))

/-- Step 3 of `evaluate_contraction`: sqop positions still holding `-1` in
`sign_order` receive the remaining sorted positions in sweep order. -/
def assignLeftovers (sqops : List SQOperator) (S : ℕ) (so : List ℤ)
    (sp : ℕ) : List ℤ × ℕ :=
  (leftoverSweep S sqops.length).foldl
    (fun st e =>
      if st.1.getD e.2.2 0 = -1 ∧
          (sqops.getD e.2.2 dummySQ).index.space = e.2.1 ∧
          (sqops.getD e.2.2 dummySQ).type = e.1
      then (st.1.set e.2.2 (st.2 : ℤ), st.2 + 1)
      else st) (so, sp)

/-- Modelled from the spec: `permutation_sign` (`combinatorics.cc` is not in
the source subset) is the sign of the permutation encoded by the list (spec
step 4: "the Fermi sign is `unoccupied_sign × sign(σ)`"), computed as the
parity of the number of inversions. -/
def inversionCount : List ℤ → ℕ
  | [] => 0
  | x :: xs => xs.countP (fun y => decide (y < x)) + inversionCount xs

/-- The sign of the permutation encoded by a list of distinct values. -/
def permutation_sign (l : List ℤ) : ℤ := (-1) ^ inversionCount l

/-- `std::sort` on the `(sign_order[i], sqops[i])` pairs of step 4: the
assigned positions are distinct, so the C++ pair comparison never consults
the sqop component and sorting by the first component alone is faithful. -/
def sqPairLe (x y : ℤ × SQOperator) : Prop := x.1 ≤ y.1

instance : DecidableRel sqPairLe := fun x y => by
  unfold sqPairLe; infer_instance

instance : IsTotal (ℤ × SQOperator) sqPairLe := ⟨fun x y => le_total x.1 y.1⟩

instance : IsTrans (ℤ × SQOperator) sqPairLe :=
  ⟨fun _ _ _ h1 h2 => le_trans h1 h2⟩

/-- The sqop vector of `evaluate_contraction` (the tags dropped). -/
def evalSqops (osi : OSI) (ops : List DiagOperator) : List SQOperator :=
  (taggedSqops osi.num_spaces ops).map Prod.snd

/-- The initial state of the contraction loop: zero offsets, `sign_order`
all `-1`, counters at zero, `unoccupied_sign = 1`, the operator tensors, and
empty reindex map. -/
def evalInit (osi : OSI) (ops : List DiagOperator) : EvalState :=
  ⟨List.replicate ops.length DiagVertex.zero,
    List.replicate (evalSqops osi ops).length (-1), 0, 0, 1,
    operatorTensors osi.num_spaces ops, [], []⟩

/-- The final `sign_order` after step 3. -/
def evalSignOrder (osi : OSI) (ops : List DiagOperator)
    (st : EvalState) : List ℤ :=
  (assignLeftovers (evalSqops osi ops) osi.num_spaces st.signOrder
    st.sortedPos).1

/-- The observable output of `evaluate_contraction`: the term data (tensors,
leftover sqops, reindex map) plus the sign data and the per-contraction
trace. -/
structure EvalResult where
  tensors : List Tensor
  sqops : List SQOperator
  reindex : List (Index × Index)
  signOrder : List ℤ
  unoccSign : ℤ
  sign : ℤ
  coeff : ℚ
  trace : List ContrRec
deriving DecidableEq

/-- Steps 3-6 of `evaluate_contraction`: complete `sign_order`, compute
`sign = unoccupied_sign * permutation_sign(sign_order)`, sort the sqops by
assigned position and drop the contracted ones, and return the scalar
`sign * factor * comb_factor` with `factor` multiplied by every operator
factor. -/
def evalFinish (osi : OSI) (ops : List DiagOperator)
    (contractions : List (List DiagVertex)) (factor : ℚ)
    (st : EvalState) : EvalResult :=
  ⟨st.tensors,
    (((((evalSignOrder osi ops st).zip (evalSqops osi ops)).insertionSort
      sqPairLe).drop st.nContracted).map Prod.snd),
    st.reindex,
    evalSignOrder osi ops st,
    st.unoccSign,
    st.unoccSign * permutation_sign (evalSignOrder osi ops st),
    ((st.unoccSign * permutation_sign (evalSignOrder osi ops st) : ℤ) : ℚ) *
      (ops.foldl (fun f op => f * op.factor) factor) *
      combinatorial_factor osi ops contractions,
    st.trace⟩

/-- `WickTheorem::evaluate_contraction(ops, contractions, factor)`
(`wick_theorem_process_contractions.cc` 267-464); `none` models the
`exit(1)` on an `op_map` miss (and the crash `spaces_in_vertices` would
produce on a contraction with no legs). -/
def evaluate_contraction (osi : OSI) (ops : List DiagOperator)
    (contractions : List (List DiagVertex)) (factor : ℚ) :
    Option EvalResult :=
  match List.foldlM
      (evalContrStep osi (opMapOf osi.num_spaces ops) (evalSqops osi ops))
      (evalInit osi ops) contractions with
  | none => none
  | some st => some (evalFinish osi ops contractions factor st)

/-- Whether a trace record contributes a `-1` factor to `unoccupied_sign`
according to the claim: an unoccupied-space pair contraction, or a rank-2
general-space contraction whose annihilator precedes its creator. -/
def claimFlip (osi : OSI) (r : ContrRec) : Bool :=
  (osi.space_type r.space == SpaceType.Unoccupied) ||
    (osi.space_type r.space == SpaceType.General && r.rank == 2 &&
      decide (r.posAnn.headI < r.posCre.headI))

/-- The number of `-1` factors the claim predicts for a contraction list. -/
def claimFlipCount (osi : OSI) (trace : List ContrRec) : ℕ :=
  trace.countP (claimFlip osi)

/-- The labelling discipline the claim states for general-space
contractions: `gamma1` when the creator precedes the annihilator in a
rank-2 contraction, `eta1` when the annihilator precedes the creator, and
`lambda(rank/2)` for higher ranks. -/
def labelsOK (osi : OSI) (r : ContrRec) : Prop :=
  osi.space_type r.space = SpaceType.General →
    (r.rank = 2 →
      (r.posCre.headI < r.posAnn.headI → r.label = some "gamma1") ∧
      (r.posAnn.headI < r.posCre.headI → r.label = some "eta1")) ∧
    (r.rank ≠ 2 →
      r.label = some ("lambda" ++ toString (r.rank / 2)))

/-- A contraction with as many creation as annihilation legs in every space
(every contraction the enumerator produces is balanced). -/
def balancedContr (contr : List DiagVertex) : Prop :=
  ∀ s : Fin 8, (contr.map (fun v => v.cre s.val)).sum =
    (contr.map (fun v => v.ann s.val)).sum

instance (contr : List DiagVertex) : Decidable (balancedContr contr) := by
  unfold balancedContr; infer_instance

/-! ### Concrete instances used by witnesses and counterexamples -/

/-- Two spaces: `0` = occupied (like `o`), `1` = unoccupied (like `v`). -/
def wOsiOV : OSI := [SpaceType.Occupied, SpaceType.Unoccupied]

/-- One general space. -/
def wOsiG : OSI := [SpaceType.General]

/-- `f` with one `o` creator and one `v` annihilator (`make_operator("f", "v->o")`). -/
def wOpF : DiagOperator := ⟨"f", 1, DiagVertex.ofList [(1, 0), (0, 1)]⟩

/-- `t` with one `v` creator and one `o` annihilator (`make_operator("t", "o->v")`). -/
def wOpT : DiagOperator := ⟨"t", 1, DiagVertex.ofList [(0, 1), (1, 0)]⟩

/-- A rank-2 operator in the general space. -/
def wOpA : DiagOperator := ⟨"a", 1, DiagVertex.ofList [(1, 1)]⟩

/-- Another rank-2 operator in the general space. -/
def wOpB : DiagOperator := ⟨"b", 1, DiagVertex.ofList [(1, 1)]⟩

/-- The elementary contractions of the `f`/`t` example. -/
def wEl : List (List DiagVertex) :=
  generate_elementary_contractions wOsiOV 2 [wOpF, wOpT]

/-- A single general-space contraction: the creator of the first operator
against the annihilator of the second. -/
def wCtrG : List (List DiagVertex) :=
  [[DiagVertex.ofList [(1, 0)], DiagVertex.ofList [(0, 1)]]]

/-- The result of evaluating `wCtrG` on the string `a b` (creator at sqop
position 0, annihilator at position 3: a `gamma1` contraction). -/
def wOutG : EvalResult :=
  ⟨[⟨"a", [⟨0, 0⟩], [⟨0, 1⟩]⟩, ⟨"b", [⟨0, 2⟩], [⟨0, 3⟩]⟩,
      ⟨"gamma1", [⟨0, 3⟩], [⟨0, 0⟩]⟩],
    [⟨SQOperatorType.Creation, ⟨0, 2⟩⟩, ⟨SQOperatorType.Annihilation, ⟨0, 1⟩⟩],
    [], [0, 3, 2, 1], 1, -1, -1,
    [⟨0, 2, [0], [3], some "gamma1"⟩]⟩

/-! ### Theorems -/

lemma alLookup_update (k : List WDiagOperator) (c : ℚ)
    (l : List (List WDiagOperator × ℚ)) (h : (alLookup k l).isSome) :
    alLookup k (alUpdate k c l) = some c := by
  induction l with
  | nil => simp [alLookup] at h
  | cons p rest ih =>
    by_cases hk : p.1 = k
    · simp [alLookup, alUpdate, hk]
    · simp only [alLookup, alUpdate, hk, if_false] at h ⊢
      exact ih h

lemma alLookup_of_not_mem_keys (k : List WDiagOperator)
    (l : List (List WDiagOperator × ℚ)) (h : k ∉ l.map Prod.fst) :
    alLookup k l = none := by
  induction l with
  | nil => rfl
  | cons p rest ih =>
    simp only [List.map_cons, List.mem_cons, not_or] at h
    have hk : p.1 ≠ k := fun he => h.1 he.symm
    simp only [alLookup, if_neg hk]
    exact ih h.2

lemma alLookup_erase_of_nodupkeys (k : List WDiagOperator)
    (l : List (List WDiagOperator × ℚ)) (hnd : (l.map Prod.fst).Nodup) :
    alLookup k (alErase k l) = none := by
  induction l with
  | nil => rfl
  | cons p rest ih =>
    simp only [List.map_cons, List.nodup_cons] at hnd
    by_cases hk : p.1 = k
    · subst hk
      simp only [alErase, if_pos rfl]
      exact alLookup_of_not_mem_keys _ rest hnd.1
    · simp only [alErase, if_neg hk, alLookup, if_neg hk]
      exact ih hnd.2

lemma alLookup_append_right (k : List WDiagOperator)
    (l : List (List WDiagOperator × ℚ)) (c : ℚ) (h : alLookup k l = none) :
    alLookup k (l ++ [(k, c)]) = some c := by
  induction l with
  | nil => simp [alLookup]
  | cons p rest ih =>
    by_cases hk : p.1 = k
    · simp [alLookup, hk] at h
    · simp only [alLookup, if_neg hk] at h ⊢
      exact ih h

/-- C10: behaviour of `WDiagOperatorSum::add` as seen through lookup, for maps
with unique keys (a `std::map` invariant):  if the key is present with stored
coefficient `c`, afterwards the stored coefficient is `c + factor` unless that
is zero, in which case the entry is gone; if the key is absent, afterwards the
stored coefficient is `factor`, even when `factor = 0`. -/
theorem wdiag_operator_sum_add_lookup (S : WDiagOperatorSum)
    (vec_dop : List WDiagOperator) (factor : ℚ)
    (hnd : (S.sum.map Prod.fst).Nodup) :
    (∀ c : ℚ, alLookup vec_dop S.sum = some c →
      alLookup vec_dop (S.add vec_dop factor).sum =
        (if c + factor = 0 then none else some (c + factor))) ∧
    (alLookup vec_dop S.sum = none →
      alLookup vec_dop (S.add vec_dop factor).sum = some factor) := by
  constructor
  · intro c hc
    unfold WDiagOperatorSum.add
    rw [hc]
    by_cases hz : c + factor = 0
    · simp only [hz, if_pos rfl, if_pos hz]
      exact alLookup_erase_of_nodupkeys vec_dop S.sum hnd
    · simp only [if_neg hz]
      exact alLookup_update vec_dop (c + factor) S.sum (by rw [hc]; rfl)
  · intro hc
    unfold WDiagOperatorSum.add
    rw [hc]
    exact alLookup_append_right vec_dop S.sum factor hc

/-- Witness for C10 at a concrete input: an empty sum, a singleton operator
string, factor `0`; the zero-coefficient entry is stored. -/
theorem wdiag_operator_sum_add_lookup_witness :
    (([] : List (List WDiagOperator × ℚ)).map Prod.fst).Nodup ∧
    alLookup [] (WDiagOperatorSum.add ⟨[]⟩ [] 0).sum = some 0 := by
  refine ⟨List.nodup_nil, ?_⟩
  exact (wdiag_operator_sum_add_lookup ⟨[]⟩ [] 0 List.nodup_nil).2 rfl

/-! ### Vertex evaluation lemmas -/

lemma gvertex_eq (s c a : ℕ) :
    (DiagVertex.zero.set_cre s c).set_ann s a =
      fun i : Fin 8 => if i.val = s then (c, a) else (0, 0) := by
  funext i
  simp only [DiagVertex.set_ann, DiagVertex.set_cre, DiagVertex.zero]
  by_cases h : i.val = s <;> simp [h]

lemma cre_gvertex {s : ℕ} (hs : s < 8) (c a : ℕ) :
    DiagVertex.cre (fun i : Fin 8 => if i.val = s then (c, a) else (0, 0)) s
      = c := by
  simp [DiagVertex.cre, hs]

lemma ann_gvertex {s : ℕ} (hs : s < 8) (c a : ℕ) :
    DiagVertex.ann (fun i : Fin 8 => if i.val = s then (c, a) else (0, 0)) s
      = a := by
  simp [DiagVertex.ann, hs]

lemma cre_gvertex_ne {s t : ℕ} (ht : t ≠ s) (c a : ℕ) :
    DiagVertex.cre (fun i : Fin 8 => if i.val = s then (c, a) else (0, 0)) t
      = 0 := by
  unfold DiagVertex.cre
  by_cases h : t < 8
  · simp [h, ht]
  · simp [h]

lemma ann_gvertex_ne {s t : ℕ} (ht : t ≠ s) (c a : ℕ) :
    DiagVertex.ann (fun i : Fin 8 => if i.val = s then (c, a) else (0, 0)) t
      = 0 := by
  unfold DiagVertex.ann
  by_cases h : t < 8
  · simp [h, ht]
  · simp [h]

lemma rank_gvertex {s : ℕ} (hs : s < 8) (c a : ℕ) :
    DiagVertex.rank (fun i : Fin 8 => if i.val = s then (c, a) else (0, 0))
      = c + a := by
  unfold DiagVertex.rank
  rw [Finset.sum_eq_single (⟨s, hs⟩ : Fin 8)]
  · simp
  · intro b _ hb
    have : b.val ≠ s := fun he => hb (Fin.ext he)
    simp [this]
  · intro h
    exact absurd (Finset.mem_univ _) h

lemma creVertex_eq (s : ℕ) :
    DiagVertex.zero.set_cre s 1 =
      fun i : Fin 8 => if i.val = s then (1, 0) else (0, 0) := by
  funext i
  simp [DiagVertex.set_cre, DiagVertex.zero]

lemma annVertex_eq (s : ℕ) :
    DiagVertex.zero.set_ann s 1 =
      fun i : Fin 8 => if i.val = s then (0, 1) else (0, 0) := by
  funext i
  simp [DiagVertex.set_ann, DiagVertex.zero]

lemma zero_eq_gvertex (s : ℕ) :
    DiagVertex.zero = fun i : Fin 8 => if i.val = s then (0, 0) else (0, 0) := by
  funext i
  simp [DiagVertex.zero]

lemma creVertex_ne_annVertex {s : ℕ} (hs : s < 8) :
    DiagVertex.zero.set_cre s 1 ≠ DiagVertex.zero.set_ann s 1 := by
  intro h
  have := congrArg (fun v => DiagVertex.cre v s) h
  rw [creVertex_eq, annVertex_eq] at this
  simp only [cre_gvertex hs] at this
  exact one_ne_zero this

lemma creVertex_ne_zero {s : ℕ} (hs : s < 8) :
    DiagVertex.zero.set_cre s 1 ≠ DiagVertex.zero := by
  intro h
  have := congrArg (fun v => DiagVertex.cre v s) h
  rw [creVertex_eq, zero_eq_gvertex s] at this
  simp only [cre_gvertex hs] at this
  exact one_ne_zero this

lemma annVertex_ne_zero {s : ℕ} (hs : s < 8) :
    DiagVertex.zero.set_ann s 1 ≠ DiagVertex.zero := by
  intro h
  have := congrArg (fun v => DiagVertex.ann v s) h
  rw [annVertex_eq, zero_eq_gvertex s] at this
  simp only [ann_gvertex hs] at this
  exact one_ne_zero this

/-! ### Generic list counting helpers -/

lemma mem_drop_range {m n a : ℕ} :
    a ∈ (List.range n).drop m ↔ m ≤ a ∧ a < n := by
  rw [List.mem_drop_iff_getElem]
  constructor
  · rintro ⟨i, hm, he⟩
    have hlen : i + m < n := by simpa using hm
    have hb : m + i < (List.range n).length := by
      simp only [List.length_range]
      omega
    have hg : (List.range n)[m + i] = m + i := List.getElem_range _ _
    rw [hg] at he
    omega
  · rintro ⟨h1, h2⟩
    have hb : m + (a - m) < (List.range n).length := by
      simp only [List.length_range]
      omega
    refine ⟨a - m, by simp only [List.length_range]; omega, ?_⟩
    have hg : (List.range n)[m + (a - m)] = m + (a - m) :=
      List.getElem_range _ _
    rw [hg]
    omega

lemma sum_map_eq_of_single {α : Type} [DecidableEq α] (l : List α)
    (g : α → ℕ) (i : α) (hnd : l.Nodup) (hi : i ∈ l)
    (h0 : ∀ c ∈ l, c ≠ i → g c = 0) : (l.map g).sum = g i := by
  induction l with
  | nil => cases hi
  | cons x rest ih =>
    rcases List.mem_cons.mp hi with hx | hx
    · subst hx
      rw [List.map_cons, List.sum_cons]
      have hz : (List.map g rest).sum = 0 :=
        List.sum_eq_zero (by
          intro y hy
          rcases List.mem_map.mp hy with ⟨c, hc, hce⟩
          rw [← hce]
          exact h0 c (List.mem_cons_of_mem _ hc)
            (fun he => (List.nodup_cons.mp hnd).1 (he ▸ hc)))
      rw [hz]
      exact Nat.add_zero _
    · have hxi : x ≠ i := fun he => (List.nodup_cons.mp hnd).1 (he ▸ hx)
      rw [List.map_cons, List.sum_cons, h0 x (List.mem_cons_self _ _) hxi,
        Nat.zero_add]
      exact ih (List.nodup_cons.mp hnd).2 hx
        (fun c hc hci => h0 c (List.mem_cons_of_mem _ hc) hci)

lemma nat_mul_pos_iff {x y : ℕ} : 0 < x * y ↔ 0 < x ∧ 0 < y := by
  rw [Nat.pos_iff_ne_zero, Nat.pos_iff_ne_zero, Nat.pos_iff_ne_zero,
    mul_ne_zero_iff]

lemma map_range_inj {α : Type} {f g : ℕ → α} {n : ℕ}
    (h : (List.range n).map f = (List.range n).map g) :
    ∀ p, p < n → f p = g p := by
  intro p hp
  have hb : p < ((List.range n).map f).length := by simpa using hp
  have hb2 : p < ((List.range n).map g).length := by simpa using hp
  have h1 : ((List.range n).map f)[p] = ((List.range n).map g)[p] := by
    congr 1
  simpa using h1

/-! ### Pair contraction lemmas (occupied and unoccupied spaces) -/

lemma mkPair_supportedOn (n s i j : ℕ) :
    supportedOn (mkPairContraction n s i j) s := by
  intro v hv t ht
  rcases List.mem_map.mp hv with ⟨p, _, he⟩
  have hv3 : v = DiagVertex.zero.set_cre s 1 ∨
      v = DiagVertex.zero.set_ann s 1 ∨ v = DiagVertex.zero := by
    rw [← he]
    by_cases h1 : p = i
    · exact Or.inl (by rw [if_pos h1])
    · by_cases h2 : p = j
      · exact Or.inr (Or.inl (by rw [if_neg h1, if_pos h2]))
      · exact Or.inr (Or.inr (by rw [if_neg h1, if_neg h2]))
  rcases hv3 with h | h | h
  · rw [h, creVertex_eq]
    exact ⟨cre_gvertex_ne ht _ _, ann_gvertex_ne ht _ _⟩
  · rw [h, annVertex_eq]
    exact ⟨cre_gvertex_ne ht _ _, ann_gvertex_ne ht _ _⟩
  · rw [h, zero_eq_gvertex s]
    exact ⟨cre_gvertex_ne ht _ _, ann_gvertex_ne ht _ _⟩

lemma mkPair_touches {n s i j : ℕ} (hs : s < 8) (hi : i < n) :
    touchesSpace (mkPairContraction n s i j) s := by
  refine ⟨DiagVertex.zero.set_cre s 1, ?_, ?_⟩
  · exact List.mem_map.mpr ⟨i, List.mem_range.mpr hi, by simp⟩
  · rw [creVertex_eq, cre_gvertex hs]
    simp

lemma mkPair_inj {n s i j i' j' : ℕ} (hs : s < 8) (hij : i ≠ j)
    (hij' : i' ≠ j') (hi : i < n) (hj : j < n) (hi' : i' < n) (hj' : j' < n)
    (h : mkPairContraction n s i j = mkPairContraction n s i' j') :
    i = i' ∧ j = j' := by
  unfold mkPairContraction at h
  have key := map_range_inj h
  have hii' : i = i' := by
    have h1 := key i hi
    rw [if_pos rfl] at h1
    by_cases e1 : i = i'
    · exact e1
    · exfalso
      by_cases e2 : i = j'
      · rw [if_neg e1, if_pos e2] at h1
        exact creVertex_ne_annVertex hs h1
      · rw [if_neg e1, if_neg e2] at h1
        exact creVertex_ne_zero hs h1
  subst hii'
  refine ⟨rfl, ?_⟩
  have h2 := key j hj
  have hji : ¬ (j = i) := fun he => hij he.symm
  by_cases e3 : j = j'
  · exact e3
  · exfalso
    rw [if_neg hji, if_pos (rfl : j = j), if_neg hji, if_neg e3] at h2
    exact annVertex_ne_zero hs h2

lemma mem_occupiedBlock {ops : List DiagOperator} {s : ℕ}
    {contr : List DiagVertex} :
    contr ∈ occupiedBlock ops s ↔ ∃ c a, c < a ∧ a < ops.length ∧
      0 < (getOp ops c).cre s * (getOp ops a).ann s ∧
      contr = mkPairContraction ops.length s c a := by
  unfold occupiedBlock
  simp only [List.mem_flatMap]
  constructor
  · rintro ⟨c, hc, a, ha, hmem⟩
    rcases mem_drop_range.mp ha with ⟨ha1, ha2⟩
    by_cases hcond : 0 < (getOp ops c).cre s * (getOp ops a).ann s
    · rw [if_pos hcond] at hmem
      exact ⟨c, a, by omega, ha2, hcond, (List.mem_singleton.mp hmem)⟩
    · rw [if_neg hcond] at hmem
      cases hmem
  · rintro ⟨c, a, h1, h2, h3, h4⟩
    exact ⟨c, List.mem_range.mpr (by omega), a,
      mem_drop_range.mpr ⟨by omega, h2⟩, by rw [if_pos h3]; simp [h4]⟩

lemma mem_unoccupiedBlock {ops : List DiagOperator} {s : ℕ}
    {contr : List DiagVertex} :
    contr ∈ unoccupiedBlock ops s ↔ ∃ a c, a < c ∧ c < ops.length ∧
      0 < (getOp ops c).cre s * (getOp ops a).ann s ∧
      contr = mkPairContraction ops.length s c a := by
  unfold unoccupiedBlock
  simp only [List.mem_flatMap]
  constructor
  · rintro ⟨a, ha, c, hc, hmem⟩
    rcases mem_drop_range.mp hc with ⟨hc1, hc2⟩
    by_cases hcond : 0 < (getOp ops c).cre s * (getOp ops a).ann s
    · rw [if_pos hcond] at hmem
      exact ⟨a, c, by omega, hc2, hcond, (List.mem_singleton.mp hmem)⟩
    · rw [if_neg hcond] at hmem
      cases hmem
  · rintro ⟨a, c, h1, h2, h3, h4⟩
    exact ⟨a, List.mem_range.mpr (by omega), c,
      mem_drop_range.mpr ⟨by omega, h2⟩, by rw [if_pos h3]; simp [h4]⟩

lemma occupiedBlock_count {ops : List DiagOperator} {s i j : ℕ} (hs : s < 8)
    (hij : i < j) (hj : j < ops.length)
    (hci : 0 < (getOp ops i).cre s) (haj : 0 < (getOp ops j).ann s) :
    (occupiedBlock ops s).count (mkPairContraction ops.length s i j) = 1 := by
  unfold occupiedBlock
  rw [List.count_flatMap]
  refine (sum_map_eq_of_single (List.range ops.length) _ i
    (List.nodup_range _) (List.mem_range.mpr (by omega)) ?_).trans ?_
  · intro c hc hci'
    simp only [Function.comp_apply]
    rw [List.count_eq_zero]
    intro hmem
    rcases List.mem_flatMap.mp hmem with ⟨a, ha, hm2⟩
    rcases mem_drop_range.mp ha with ⟨ha1, ha2⟩
    by_cases hcond : 0 < (getOp ops c).cre s * (getOp ops a).ann s
    · rw [if_pos hcond] at hm2
      have heq := List.mem_singleton.mp hm2
      exact hci' ((mkPair_inj hs (by omega) (by omega) (by omega) hj
        (by omega) ha2 heq).1.symm)
    · rw [if_neg hcond] at hm2
      cases hm2
  · simp only [Function.comp_apply]
    rw [List.count_flatMap]
    refine (sum_map_eq_of_single ((List.range ops.length).drop (i + 1)) _ j
      ((List.drop_sublist _ _).nodup (List.nodup_range _))
      (mem_drop_range.mpr ⟨by omega, hj⟩) ?_).trans ?_
    · intro a ha haj'
      rcases mem_drop_range.mp ha with ⟨ha1, ha2⟩
      simp only [Function.comp_apply]
      rw [List.count_eq_zero]
      intro hmem
      by_cases hcond : 0 < (getOp ops i).cre s * (getOp ops a).ann s
      · rw [if_pos hcond] at hmem
        have heq := List.mem_singleton.mp hmem
        exact haj' ((mkPair_inj hs (by omega) (by omega) (by omega) hj
          (by omega) ha2 heq).2.symm)
      · rw [if_neg hcond] at hmem
        cases hmem
    · simp only [Function.comp_apply]
      rw [if_pos (nat_mul_pos_iff.mpr ⟨hci, haj⟩)]
      simp

lemma unoccupiedBlock_count {ops : List DiagOperator} {s i j : ℕ} (hs : s < 8)
    (hij : i < j) (hj : j < ops.length)
    (hai : 0 < (getOp ops i).ann s) (hcj : 0 < (getOp ops j).cre s) :
    (unoccupiedBlock ops s).count (mkPairContraction ops.length s j i) = 1 := by
  unfold unoccupiedBlock
  rw [List.count_flatMap]
  refine (sum_map_eq_of_single (List.range ops.length) _ i
    (List.nodup_range _) (List.mem_range.mpr (by omega)) ?_).trans ?_
  · intro a ha hai'
    simp only [Function.comp_apply]
    rw [List.count_eq_zero]
    intro hmem
    rcases List.mem_flatMap.mp hmem with ⟨c, hc, hm2⟩
    rcases mem_drop_range.mp hc with ⟨hc1, hc2⟩
    by_cases hcond : 0 < (getOp ops c).cre s * (getOp ops a).ann s
    · rw [if_pos hcond] at hm2
      have heq := List.mem_singleton.mp hm2
      exact hai' ((mkPair_inj hs (by omega) (by omega) (by omega) (by omega)
        hc2 (by omega) heq).2.symm)
    · rw [if_neg hcond] at hm2
      cases hm2
  · simp only [Function.comp_apply]
    rw [List.count_flatMap]
    refine (sum_map_eq_of_single ((List.range ops.length).drop (i + 1)) _ j
      ((List.drop_sublist _ _).nodup (List.nodup_range _))
      (mem_drop_range.mpr ⟨by omega, hj⟩) ?_).trans ?_
    · intro c hc hcj'
      rcases mem_drop_range.mp hc with ⟨hc1, hc2⟩
      simp only [Function.comp_apply]
      rw [List.count_eq_zero]
      intro hmem
      by_cases hcond : 0 < (getOp ops c).cre s * (getOp ops i).ann s
      · rw [if_pos hcond] at hmem
        have heq := List.mem_singleton.mp hmem
        exact hcj' ((mkPair_inj hs (by omega) (by omega) (by omega) (by omega)
          hc2 (by omega) heq).1.symm)
      · rw [if_neg hcond] at hmem
        cases hmem
    · simp only [Function.comp_apply]
      rw [if_pos (nat_mul_pos_iff.mpr ⟨hcj, hai⟩)]
      simp

lemma mem_zipWith_gvertex {s : ℕ} {cl al : List ℕ} {v : DiagVertex}
    (hv : v ∈ mkGeneralContraction s cl al) :
    ∃ c a, v = (DiagVertex.zero.set_cre s c).set_ann s a := by
  rcases List.mem_iff_getElem.mp hv with ⟨p, hp, he⟩
  unfold mkGeneralContraction at he
  rw [List.getElem_zipWith] at he
  exact ⟨_, _, he.symm⟩

lemma mkGeneral_supportedOn (s : ℕ) (cl al : List ℕ) :
    supportedOn (mkGeneralContraction s cl al) s := by
  intro v hv t ht
  rcases mem_zipWith_gvertex hv with ⟨c, a, he⟩
  rw [he, gvertex_eq]
  exact ⟨cre_gvertex_ne ht _ _, ann_gvertex_ne ht _ _⟩

lemma mem_generalBlock {K : ℕ} {ops : List DiagOperator} {s : ℕ}
    {contr : List DiagVertex} :
    contr ∈ generalBlock K ops s ↔ ∃ h cl al,
      h < min (min (sumCre ops s) (sumAnn ops s)) K ∧
      cl ∈ compositions (h + 1) ops.length ∧
      al ∈ compositions (h + 1) ops.length ∧
      (∀ A < ops.length, cl.getD A 0 ≤ (getOp ops A).cre s) ∧
      (∀ A < ops.length, al.getD A 0 ≤ (getOp ops A).ann s) ∧
      2 ≤ numTouchedPositions ops.length cl al ∧
      contr = mkGeneralContraction s cl al := by
  unfold generalBlock
  simp only [List.mem_flatMap, List.mem_filter, List.mem_range, List.all_eq_true,
    decide_eq_true_eq]
  constructor
  · rintro ⟨h, hh, cl, ⟨hclm, hclc⟩, al, ⟨halm, halc⟩, hmem⟩
    by_cases hcond : 2 ≤ numTouchedPositions ops.length cl al
    · rw [if_pos hcond] at hmem
      exact ⟨h, cl, al, hh, hclm, halm, hclc, halc, hcond,
        List.mem_singleton.mp hmem⟩
    · rw [if_neg hcond] at hmem
      cases hmem
  · rintro ⟨h, cl, al, hh, hclm, halm, hclc, halc, hcond, he⟩
    exact ⟨h, hh, cl, ⟨hclm, hclc⟩, al, ⟨halm, halc⟩,
      by rw [if_pos hcond]; simp [he]⟩

lemma spaceBlock_supportedOn {osi : OSI} {K : ℕ} {ops : List DiagOperator}
    {s : ℕ} {contr : List DiagVertex} (h : contr ∈ spaceBlock osi K ops s) :
    supportedOn contr s := by
  unfold spaceBlock at h
  rcases hst : osi.space_type s with _ | _ | _ <;> rw [hst] at h
  · rcases mem_occupiedBlock.mp h with ⟨c, a, _, _, _, he⟩
    exact he ▸ mkPair_supportedOn _ _ _ _
  · rcases mem_unoccupiedBlock.mp h with ⟨a, c, _, _, _, he⟩
    exact he ▸ mkPair_supportedOn _ _ _ _
  · rcases mem_generalBlock.mp h with ⟨h', cl, al, _, _, _, _, _, _, he⟩
    exact he ▸ mkGeneral_supportedOn _ _ _

lemma touches_eq_of_supported {contr : List DiagVertex} {s s' : ℕ}
    (hsup : supportedOn contr s') (ht : touchesSpace contr s) : s = s' := by
  rcases ht with ⟨v, hv, hne⟩
  by_contra hss
  rcases hsup v hv s hss with ⟨h1, h2⟩
  rw [h1, h2] at hne
  exact hne rfl

lemma count_generate_eq_count_block {osi : OSI} {K : ℕ}
    {ops : List DiagOperator} {s : ℕ} {x : List DiagVertex}
    (hs : s < osi.num_spaces) (htouch : touchesSpace x s) :
    (generate_elementary_contractions osi K ops).count x =
      (spaceBlock osi K ops s).count x := by
  unfold generate_elementary_contractions
  rw [List.count_flatMap]
  refine (sum_map_eq_of_single (List.range osi.num_spaces) _ s
    (List.nodup_range _) (List.mem_range.mpr hs) ?_).trans ?_
  · intro s' _ hss'
    simp only [Function.comp_apply]
    rw [List.count_eq_zero]
    intro hmem
    exact hss' (touches_eq_of_supported (spaceBlock_supportedOn hmem) htouch).symm
  · rfl

/-- C6: for an occupied-kind space `s`, `generate_elementary_contractions`
emits exactly one contraction (cre-leg at `i`, ann-leg at `j`) per ordered
pair `i < j` with `ops[i].cre(s) ≥ 1` and `ops[j].ann(s) ≥ 1`, and nothing
else touching `s`; for an unoccupied-kind space, exactly one contraction
(ann-leg at `i`, cre-leg at `j`) per ordered pair `i < j` with
`ops[i].ann(s) ≥ 1` and `ops[j].cre(s) ≥ 1`, and nothing else touching `s`. -/
theorem elementary_pair_contractions (osi : OSI) (K : ℕ)
    (ops : List DiagOperator) (s : ℕ) (hS : osi.num_spaces ≤ 8)
    (hs : s < osi.num_spaces) :
    (osi.space_type s = SpaceType.Occupied →
      (∀ i j, i < j → j < ops.length → 1 ≤ (getOp ops i).cre s →
        1 ≤ (getOp ops j).ann s →
        (generate_elementary_contractions osi K ops).count
          (mkPairContraction ops.length s i j) = 1) ∧
      (∀ contr ∈ generate_elementary_contractions osi K ops,
        touchesSpace contr s →
        ∃ i j, i < j ∧ j < ops.length ∧ 1 ≤ (getOp ops i).cre s ∧
          1 ≤ (getOp ops j).ann s ∧
          contr = mkPairContraction ops.length s i j)) ∧
    (osi.space_type s = SpaceType.Unoccupied →
      (∀ i j, i < j → j < ops.length → 1 ≤ (getOp ops i).ann s →
        1 ≤ (getOp ops j).cre s →
        (generate_elementary_contractions osi K ops).count
          (mkPairContraction ops.length s j i) = 1) ∧
      (∀ contr ∈ generate_elementary_contractions osi K ops,
        touchesSpace contr s →
        ∃ i j, i < j ∧ j < ops.length ∧ 1 ≤ (getOp ops i).ann s ∧
          1 ≤ (getOp ops j).cre s ∧
          contr = mkPairContraction ops.length s j i)) := by
  have hs8 : s < 8 := by omega
  constructor
  · intro hocc
    constructor
    · intro i j hij hj hci haj
      rw [count_generate_eq_count_block hs (mkPair_touches hs8 (by omega))]
      unfold spaceBlock
      rw [hocc]
      exact occupiedBlock_count hs8 hij hj hci haj
    · intro contr hmem htouch
      rcases List.mem_flatMap.mp hmem with ⟨s', hs', hblock⟩
      have hseq : s = s' :=
        touches_eq_of_supported (spaceBlock_supportedOn hblock) htouch
      subst hseq
      unfold spaceBlock at hblock
      rw [hocc] at hblock
      rcases mem_occupiedBlock.mp hblock with ⟨c, a, h1, h2, h3, h4⟩
      rcases nat_mul_pos_iff.mp h3 with ⟨h5, h6⟩
      exact ⟨c, a, h1, h2, h5, h6, h4⟩
  · intro hunocc
    constructor
    · intro i j hij hj hai hcj
      rw [count_generate_eq_count_block hs (mkPair_touches hs8 (by omega))]
      unfold spaceBlock
      rw [hunocc]
      exact unoccupiedBlock_count hs8 hij hj hai hcj
    · intro contr hmem htouch
      rcases List.mem_flatMap.mp hmem with ⟨s', hs', hblock⟩
      have hseq : s = s' :=
        touches_eq_of_supported (spaceBlock_supportedOn hblock) htouch
      subst hseq
      unfold spaceBlock at hblock
      rw [hunocc] at hblock
      rcases mem_unoccupiedBlock.mp hblock with ⟨a, c, h1, h2, h3, h4⟩
      rcases nat_mul_pos_iff.mp h3 with ⟨h5, h6⟩
      exact ⟨a, c, h1, h2, h6, h5, h4⟩

/-! ### Compositions and the general-space block -/

lemma mem_compositions {k n : ℕ} {l : List ℕ} :
    l ∈ compositions k n ↔ l.length = n ∧ l.sum = k := by
  induction n generalizing k l with
  | zero =>
    unfold compositions
    by_cases hk : k = 0
    · subst hk
      constructor
      · intro h
        have hl : l = [] := by simpa using h
        subst hl
        simp
      · rintro ⟨h1, _⟩
        have hl : l = [] := List.eq_nil_of_length_eq_zero h1
        subst hl
        simp
    · rw [if_neg hk]
      simp only [List.not_mem_nil, false_iff, not_and]
      intro h1 h2
      exact hk (by rw [← h2, List.eq_nil_of_length_eq_zero h1]; rfl)
  | succ n ih =>
    unfold compositions
    simp only [List.mem_flatMap, List.mem_map, List.mem_range]
    constructor
    · rintro ⟨x, hx, t, ht, rfl⟩
      rcases ih.mp ht with ⟨h1, h2⟩
      refine ⟨by simp [h1], ?_⟩
      rw [List.sum_cons, h2]
      omega
    · rintro ⟨h1, h2⟩
      rcases l with _ | ⟨x, t⟩
      · simp at h1
      · rw [List.sum_cons] at h2
        refine ⟨x, by omega, t, ih.mpr ⟨by simpa using h1, by omega⟩, rfl⟩

lemma compositions_nodup (k n : ℕ) : (compositions k n).Nodup := by
  induction n generalizing k with
  | zero =>
    unfold compositions
    by_cases hk : k = 0
    · rw [if_pos hk]
      simp
    · rw [if_neg hk]
      exact List.nodup_nil
  | succ n ih =>
    unfold compositions
    rw [List.nodup_flatMap]
    refine ⟨fun x _ => (ih _).map (fun a b hab => ?_), ?_⟩
    · exact (List.cons_eq_cons.mp hab).2
    · refine List.Pairwise.imp ?_ (List.pairwise_lt_range _)
      intro x y hxy
      intro z hz hz'
      rcases List.mem_map.mp hz with ⟨t, _, rfl⟩
      rcases List.mem_map.mp hz' with ⟨t', _, he⟩
      exact absurd (List.cons_eq_cons.mp he.symm).1 (by omega)

lemma mkGeneral_getElem {s : ℕ} {cl al : List ℕ} {p : ℕ}
    (hp : p < (mkGeneralContraction s cl al).length) :
    (mkGeneralContraction s cl al)[p] =
      (DiagVertex.zero.set_cre s (cl.getD p 0)).set_ann s (al.getD p 0) := by
  have hcl : p < cl.length := by
    simp only [mkGeneralContraction, List.length_zipWith, lt_min_iff] at hp
    omega
  have hal : p < al.length := by
    simp only [mkGeneralContraction, List.length_zipWith, lt_min_iff] at hp
    omega
  unfold mkGeneralContraction at hp ⊢
  rw [List.getElem_zipWith, List.getD_eq_getElem cl 0 hcl,
    List.getD_eq_getElem al 0 hal]

lemma mkGeneral_inj {s : ℕ} (hs : s < 8) {cl al cl' al' : List ℕ} {n : ℕ}
    (h1 : cl.length = n) (h2 : al.length = n) (h3 : cl'.length = n)
    (h4 : al'.length = n)
    (h : mkGeneralContraction s cl al = mkGeneralContraction s cl' al') :
    cl = cl' ∧ al = al' := by
  have hlen : (mkGeneralContraction s cl al).length = n := by
    simp [mkGeneralContraction, h1, h2]
  have key : ∀ p, p < n →
      cl.getD p 0 = cl'.getD p 0 ∧ al.getD p 0 = al'.getD p 0 := by
    intro p hp
    have hb1 : p < (mkGeneralContraction s cl al).length := by omega
    have hb2 : p < (mkGeneralContraction s cl' al').length := by
      simp only [mkGeneralContraction, List.length_zipWith, lt_min_iff, h3, h4]
      omega
    have hv : (mkGeneralContraction s cl al)[p] =
        (mkGeneralContraction s cl' al')[p] := by
      congr 1
    rw [mkGeneral_getElem, mkGeneral_getElem] at hv
    rw [gvertex_eq, gvertex_eq] at hv
    constructor
    · have h5 : DiagVertex.cre (fun i : Fin 8 =>
          if i.val = s then (cl.getD p 0, al.getD p 0)
          else (0, 0)) s =
          DiagVertex.cre (fun i : Fin 8 =>
          if i.val = s then (cl'.getD p 0, al'.getD p 0)
          else (0, 0)) s := by
        rw [hv]
      rwa [cre_gvertex hs, cre_gvertex hs] at h5
    · have h5 : DiagVertex.ann (fun i : Fin 8 =>
          if i.val = s then (cl.getD p 0, al.getD p 0)
          else (0, 0)) s =
          DiagVertex.ann (fun i : Fin 8 =>
          if i.val = s then (cl'.getD p 0, al'.getD p 0)
          else (0, 0)) s := by
        rw [hv]
      rwa [ann_gvertex hs, ann_gvertex hs] at h5
  constructor
  · refine List.ext_getElem (by omega) ?_
    intro p hp1 hp2
    have hk := (key p (by omega)).1
    rwa [List.getD_eq_getElem cl 0 (by omega),
      List.getD_eq_getElem cl' 0 (by omega)] at hk
  · refine List.ext_getElem (by omega) ?_
    intro p hp1 hp2
    have hk := (key p (by omega)).2
    rwa [List.getD_eq_getElem al 0 (by omega),
      List.getD_eq_getElem al' 0 (by omega)] at hk

lemma mkGeneral_cons (s c a : ℕ) (ct at' : List ℕ) :
    mkGeneralContraction s (c :: ct) (a :: at') =
      ((DiagVertex.zero.set_cre s c).set_ann s a)
        :: mkGeneralContraction s ct at' := by
  unfold mkGeneralContraction
  rw [List.zipWith_cons_cons]

lemma vertices_rank_cons (v : DiagVertex) (rest : List DiagVertex) :
    vertices_rank (v :: rest) = v.rank + vertices_rank rest := by
  simp [vertices_rank]

lemma vertices_rank_mkGeneral {s : ℕ} (hs : s < 8) :
    ∀ {cl al : List ℕ}, cl.length = al.length →
    vertices_rank (mkGeneralContraction s cl al) = cl.sum + al.sum := by
  intro cl
  induction cl with
  | nil =>
    intro al h
    have hal : al = [] := List.eq_nil_of_length_eq_zero (by simpa using h.symm)
    subst hal
    rfl
  | cons c ct ih =>
    intro al h
    rcases al with _ | ⟨a, at'⟩
    · simp at h
    · have hr : DiagVertex.rank ((DiagVertex.zero.set_cre s c).set_ann s a)
          = c + a := by
        rw [gvertex_eq]
        exact rank_gvertex hs c a
      have hih := @ih at' (by simpa using h)
      rw [mkGeneral_cons, vertices_rank_cons, hr, hih, List.sum_cons,
        List.sum_cons]
      omega

lemma touch_setform {s : ℕ} (hs : s < 8) {c a : ℕ} (h : 0 < c + a) :
    DiagVertex.cre ((DiagVertex.zero.set_cre s c).set_ann s a) s +
    DiagVertex.ann ((DiagVertex.zero.set_cre s c).set_ann s a) s ≠ 0 := by
  rw [gvertex_eq, cre_gvertex hs, ann_gvertex hs]
  omega

lemma mkGeneral_touches {s : ℕ} (hs : s < 8) {cl al : List ℕ} {n : ℕ}
    (h1 : cl.length = n) (h2 : al.length = n)
    (htouch : 2 ≤ numTouchedPositions n cl al) :
    touchesSpace (mkGeneralContraction s cl al) s := by
  unfold numTouchedPositions at htouch
  have hne : ((List.range n).filter
      (fun A => 0 < cl.getD A 0 + al.getD A 0)) ≠ [] := by
    intro he
    rw [he] at htouch
    simp at htouch
  rcases List.exists_mem_of_ne_nil _ hne with ⟨A, hA⟩
  rcases List.mem_filter.mp hA with ⟨hA1, hA2⟩
  have hAn : A < n := List.mem_range.mp hA1
  have hlen : (mkGeneralContraction s cl al).length = n := by
    unfold mkGeneralContraction
    rw [List.length_zipWith, h1, h2]
    omega
  simp only [decide_eq_true_eq] at hA2
  have hAb : A < (mkGeneralContraction s cl al).length := by omega
  refine ⟨(mkGeneralContraction s cl al)[A], List.getElem_mem _, ?_⟩
  rw [mkGeneral_getElem]
  exact touch_setform hs hA2

lemma generalBlock_count {K : ℕ} {ops : List DiagOperator} {s : ℕ}
    (hs : s < 8) {k : ℕ} {cl al : List ℕ}
    (hk1 : 1 ≤ k) (hk2 : k ≤ min (min (sumCre ops s) (sumAnn ops s)) K)
    (hcl : cl ∈ compositions k ops.length)
    (hal : al ∈ compositions k ops.length)
    (hclc : ∀ A < ops.length, cl.getD A 0 ≤ (getOp ops A).cre s)
    (halc : ∀ A < ops.length, al.getD A 0 ≤ (getOp ops A).ann s)
    (htouch : 2 ≤ numTouchedPositions ops.length cl al) :
    (generalBlock K ops s).count (mkGeneralContraction s cl al) = 1 := by
  rcases mem_compositions.mp hcl with ⟨hcl1, hcl2⟩
  rcases mem_compositions.mp hal with ⟨hal1, hal2⟩
  unfold generalBlock
  rw [List.count_flatMap]
  refine (sum_map_eq_of_single _ _ (k - 1) (List.nodup_range _)
    (List.mem_range.mpr (by omega)) ?_).trans ?_
  · intro h' _ hne
    simp only [Function.comp_apply]
    rw [List.count_eq_zero]
    intro hmem
    rcases List.mem_flatMap.mp hmem with ⟨cl', hcl', hmem2⟩
    rcases List.mem_flatMap.mp hmem2 with ⟨al', hal', hmem3⟩
    rcases List.mem_filter.mp hcl' with ⟨hcl'm, _⟩
    rcases List.mem_filter.mp hal' with ⟨hal'm, _⟩
    rcases mem_compositions.mp hcl'm with ⟨hl1, hl2⟩
    rcases mem_compositions.mp hal'm with ⟨hl3, hl4⟩
    by_cases hcond : 2 ≤ numTouchedPositions ops.length cl' al'
    · rw [if_pos hcond] at hmem3
      have heq := List.mem_singleton.mp hmem3
      have := mkGeneral_inj hs hcl1 hal1 hl1 hl3 heq
      apply hne
      rw [← hcl2, this.1, hl2]
      omega
    · rw [if_neg hcond] at hmem3
      cases hmem3
  · simp only [Function.comp_apply]
    have hkk : k - 1 + 1 = k := by omega
    rw [hkk, List.count_flatMap]
    have hclv : cl ∈ (compositions k ops.length).filter
        (fun l => (List.range ops.length).all
          (fun A => l.getD A 0 ≤ (getOp ops A).cre s)) := by
      refine List.mem_filter.mpr ⟨hcl, ?_⟩
      simp only [List.all_eq_true, List.mem_range, decide_eq_true_eq]
      exact hclc
    have halv : al ∈ (compositions k ops.length).filter
        (fun l => (List.range ops.length).all
          (fun A => l.getD A 0 ≤ (getOp ops A).ann s)) := by
      refine List.mem_filter.mpr ⟨hal, ?_⟩
      simp only [List.all_eq_true, List.mem_range, decide_eq_true_eq]
      exact halc
    refine (sum_map_eq_of_single _ _ cl
      ((compositions_nodup _ _).filter _) hclv ?_).trans ?_
    · intro cl' hcl' hne
      simp only [Function.comp_apply]
      rw [List.count_eq_zero]
      intro hmem
      rcases List.mem_flatMap.mp hmem with ⟨al', hal', hmem3⟩
      rcases List.mem_filter.mp hcl' with ⟨hcl'm, _⟩
      rcases List.mem_filter.mp hal' with ⟨hal'm, _⟩
      rcases mem_compositions.mp hcl'm with ⟨hl1, _⟩
      rcases mem_compositions.mp hal'm with ⟨hl3, _⟩
      by_cases hcond : 2 ≤ numTouchedPositions ops.length cl' al'
      · rw [if_pos hcond] at hmem3
        have heq := List.mem_singleton.mp hmem3
        exact hne (mkGeneral_inj hs hcl1 hal1 hl1 hl3 heq).1.symm
      · rw [if_neg hcond] at hmem3
        cases hmem3
    · simp only [Function.comp_apply]
      rw [List.count_flatMap]
      refine (sum_map_eq_of_single _ _ al
        ((compositions_nodup _ _).filter _) halv ?_).trans ?_
      · intro al' hal' hne
        simp only [Function.comp_apply]
        rw [List.count_eq_zero]
        intro hmem
        rcases List.mem_filter.mp hal' with ⟨hal'm, _⟩
        rcases mem_compositions.mp hal'm with ⟨hl3, _⟩
        by_cases hcond : 2 ≤ numTouchedPositions ops.length cl al'
        · rw [if_pos hcond] at hmem
          have heq := List.mem_singleton.mp hmem
          exact hne (mkGeneral_inj hs hcl1 hal1 hcl1 hl3 heq).2.symm
        · rw [if_neg hcond] at hmem
          cases hmem
      · simp only [Function.comp_apply]
        rw [if_pos htouch]
        simp

/-- C5: for a general-kind space `s`, the generator emits exactly one
elementary contraction for every `k ∈ [1, min(Σcre, Σann, K)]` and every pair
`(cre_legs, ann_legs)` of capacity-respecting length-`N` compositions of `k`
touching at least two positions; conversely everything it emits for `s` has
this form, with total rank `2k` and `k ≤ K`. -/
theorem elementary_general_contractions (osi : OSI) (K : ℕ)
    (ops : List DiagOperator) (s : ℕ) (hS : osi.num_spaces ≤ 8)
    (hs : s < osi.num_spaces) (hgen : osi.space_type s = SpaceType.General) :
    (∀ k cre_legs ann_legs, 1 ≤ k →
      k ≤ min (min (sumCre ops s) (sumAnn ops s)) K →
      cre_legs ∈ compositions k ops.length →
      ann_legs ∈ compositions k ops.length →
      (∀ A < ops.length, cre_legs.getD A 0 ≤ (getOp ops A).cre s) →
      (∀ A < ops.length, ann_legs.getD A 0 ≤ (getOp ops A).ann s) →
      2 ≤ numTouchedPositions ops.length cre_legs ann_legs →
      (generate_elementary_contractions osi K ops).count
        (mkGeneralContraction s cre_legs ann_legs) = 1) ∧
    (∀ contr ∈ generate_elementary_contractions osi K ops,
      touchesSpace contr s →
      ∃ k cre_legs ann_legs, 1 ≤ k ∧
        k ≤ min (min (sumCre ops s) (sumAnn ops s)) K ∧ k ≤ K ∧
        cre_legs ∈ compositions k ops.length ∧
        ann_legs ∈ compositions k ops.length ∧
        (∀ A < ops.length, cre_legs.getD A 0 ≤ (getOp ops A).cre s) ∧
        (∀ A < ops.length, ann_legs.getD A 0 ≤ (getOp ops A).ann s) ∧
        2 ≤ numTouchedPositions ops.length cre_legs ann_legs ∧
        contr = mkGeneralContraction s cre_legs ann_legs ∧
        vertices_rank contr = 2 * k) := by
  have hs8 : s < 8 := by omega
  constructor
  · intro k cl al hk1 hk2 hcl hal hclc halc htouch
    rcases mem_compositions.mp hcl with ⟨hcl1, _⟩
    rcases mem_compositions.mp hal with ⟨hal1, _⟩
    rw [count_generate_eq_count_block hs
      (mkGeneral_touches hs8 hcl1 hal1 htouch)]
    unfold spaceBlock
    rw [hgen]
    exact generalBlock_count hs8 hk1 hk2 hcl hal hclc halc htouch
  · intro contr hmem htouch
    rcases List.mem_flatMap.mp hmem with ⟨s', hs', hblock⟩
    have hseq : s = s' :=
      touches_eq_of_supported (spaceBlock_supportedOn hblock) htouch
    subst hseq
    unfold spaceBlock at hblock
    rw [hgen] at hblock
    rcases mem_generalBlock.mp hblock with
      ⟨h, cl, al, hh, hclm, halm, hclc, halc, hcond, he⟩
    rcases mem_compositions.mp hclm with ⟨hcl1, hcl2⟩
    rcases mem_compositions.mp halm with ⟨hal1, hal2⟩
    refine ⟨h + 1, cl, al, by omega, by omega, by omega, hclm, halm, hclc,
      halc, hcond, he, ?_⟩
    rw [he, vertices_rank_mkGeneral hs8 (by omega)]
    omega

/-- Witness for C6 at the `f`/`t` pair: the occupied-space contraction
between the creator of `f` and the annihilator of `t` is emitted exactly
once. -/
theorem elementary_pair_contractions_witness :
    wOsiOV.num_spaces ≤ 8 ∧ 0 < wOsiOV.num_spaces ∧
    (generate_elementary_contractions wOsiOV 2 [wOpF, wOpT]).count
      (mkPairContraction 2 0 0 1) = 1 :=
  ⟨by decide, by decide,
    ((elementary_pair_contractions wOsiOV 2 [wOpF, wOpT] 0 (by decide)
      (by decide)).1 (by decide)).1 0 1 (by decide) (by decide) (by decide)
      (by decide)⟩

/-- Witness for C5 at two rank-2 general-space operators: the `k = 1`
contraction with the cre-leg on position 0 and the ann-leg on position 1 is
emitted exactly once. -/
theorem elementary_general_contractions_witness :
    wOsiG.num_spaces ≤ 8 ∧ 0 < wOsiG.num_spaces ∧
    wOsiG.space_type 0 = SpaceType.General ∧
    (generate_elementary_contractions wOsiG 2 [wOpA, wOpB]).count
      (mkGeneralContraction 0 [1, 0] [0, 1]) = 1 :=
  ⟨by decide, by decide, by decide,
    (elementary_general_contractions wOsiG 2 [wOpA, wOpB] 0 (by decide)
      (by decide) (by decide)).1 1 [1, 0] [0, 1] (by decide) (by decide)
      (by decide) (by decide) (by decide) (by decide) (by decide)⟩

/-! ### Backtracking lemmas (C7, C8) -/

lemma mem_construct_candidates {S : ℕ} {el : List (List DiagVertex)}
    {stack : List ℕ} {free : List DiagVertex} {c : ℕ} :
    c ∈ construct_candidates S el stack free ↔
      stack.getLast?.getD 0 ≤ c ∧ c < el.length ∧
      compatibleContr S free (el.getD c []) = true := by
  unfold construct_candidates
  simp only [List.mem_filter, List.mem_range, Bool.and_eq_true,
    decide_eq_true_eq]
  tauto

lemma btNode_eq (S : ℕ) (el : List (List DiagVertex)) (mn mx : ℤ)
    (fuel : ℕ) (stack : List ℕ) (free : List DiagVertex) :
    btNode S el mn mx (fuel + 1) stack free =
      process_contraction stack free mn mx ++
        (construct_candidates S el stack free).flatMap
          (fun c => btNode S el mn mx fuel (stack ++ [c])
            (freeSub free (el.getD c []))) := by
  rw [btNode]

lemma mem_process_contraction {stack : List ℕ} {free : List DiagVertex}
    {mn mx : ℤ} {cs : List ℕ} (h : cs ∈ process_contraction stack free mn mx) :
    cs = stack ∧ mn ≤ (vertices_rank free : ℤ) ∧
      (vertices_rank free : ℤ) ≤ mx := by
  unfold process_contraction at h
  by_cases hband : mn ≤ (vertices_rank free : ℤ) ∧ (vertices_rank free : ℤ) ≤ mx
  · rw [if_pos hband] at h
    exact ⟨List.mem_singleton.mp h, hband⟩
  · rw [if_neg hband] at h
    cases h

lemma btNode_band {S : ℕ} {el : List (List DiagVertex)} {mn mx : ℤ} :
    ∀ (fuel : ℕ) (stack : List ℕ) (free : List DiagVertex) (cs : List ℕ),
    cs ∈ btNode S el mn mx fuel stack free →
    ∃ t, cs = stack ++ t ∧ pathValid S el free t ∧
      mn ≤ (vertices_rank (freeAfter el free t) : ℤ) ∧
      (vertices_rank (freeAfter el free t) : ℤ) ≤ mx := by
  intro fuel
  induction fuel with
  | zero =>
    intro stack free cs h
    simp [btNode] at h
  | succ fuel ih =>
    intro stack free cs h
    rw [btNode_eq] at h
    rcases List.mem_append.mp h with h | h
    · rcases mem_process_contraction h with ⟨rfl, hb1, hb2⟩
      exact ⟨[], by simp, trivial, hb1, hb2⟩
    · rcases List.mem_flatMap.mp h with ⟨c, hc, hmem⟩
      rcases mem_construct_candidates.mp hc with ⟨_, hlen, hcompat⟩
      rcases ih _ _ _ hmem with ⟨t, rfl, hpv, hb1, hb2⟩
      exact ⟨c :: t, by simp, ⟨⟨hlen, hcompat⟩, hpv⟩, hb1, hb2⟩

lemma btNode_nodup {S : ℕ} {el : List (List DiagVertex)} {mn mx : ℤ} :
    ∀ (fuel : ℕ) (stack : List ℕ) (free : List DiagVertex),
    (btNode S el mn mx fuel stack free).Nodup := by
  intro fuel
  induction fuel with
  | zero =>
    intro stack free
    simp [btNode]
  | succ fuel ih =>
    intro stack free
    rw [btNode_eq]
    refine List.Nodup.append ?_ ?_ ?_
    · unfold process_contraction
      split
      · simp
      · simp
    · rw [List.nodup_flatMap]
      refine ⟨fun c _ => ih _ _, ?_⟩
      refine List.Pairwise.imp ?_ ((List.nodup_range _).filter _)
      intro c c' hcc'
      intro cs hcs1 hcs2
      rcases btNode_band fuel _ _ _ hcs1 with ⟨t, rfl, _⟩
      rcases btNode_band fuel _ _ _ hcs2 with ⟨t', ht', _⟩
      have ht2 : stack ++ (c :: t) = stack ++ (c' :: t') := by
        simpa using ht'
      exact hcc' (List.cons_eq_cons.mp (List.append_cancel_left ht2)).1
    · rw [List.disjoint_left]
      intro cs hcs1 hcs2
      rcases mem_process_contraction hcs1 with ⟨rfl, _⟩
      rcases List.mem_flatMap.mp hcs2 with ⟨c', _, hmem⟩
      rcases btNode_band fuel _ _ _ hmem with ⟨t', ht', _⟩
      have := congrArg List.length ht'
      simp only [List.length_append, List.length_cons,
        List.length_singleton] at this
      omega

lemma btNode_chain {S : ℕ} {el : List (List DiagVertex)} {mn mx : ℤ} :
    ∀ (fuel : ℕ) (stack : List ℕ) (free : List DiagVertex),
    List.Chain' (· ≤ ·) stack →
    ∀ cs ∈ btNode S el mn mx fuel stack free, List.Chain' (· ≤ ·) cs := by
  intro fuel
  induction fuel with
  | zero =>
    intro stack free _ cs h
    simp [btNode] at h
  | succ fuel ih =>
    intro stack free hch cs h
    rw [btNode_eq] at h
    rcases List.mem_append.mp h with h | h
    · rcases mem_process_contraction h with ⟨rfl, _⟩
      exact hch
    · rcases List.mem_flatMap.mp h with ⟨c, hc, hmem⟩
      refine ih _ _ ?_ cs hmem
      rw [List.chain'_append]
      refine ⟨hch, List.chain'_singleton c, ?_⟩
      intro x hx y hy
      simp only [List.head?_cons, Option.mem_def, Option.some.injEq] at hy
      subst hy
      rcases mem_construct_candidates.mp hc with ⟨h1, _, _⟩
      have hx' : stack.getLast? = some x := hx
      rw [hx'] at h1
      exact h1

lemma DiagVertex.zero_add (v : DiagVertex) :
    DiagVertex.add DiagVertex.zero v = v := by
  funext i
  simp [DiagVertex.add, DiagVertex.zero]

lemma DiagVertex.add_assoc (u v w : DiagVertex) :
    DiagVertex.add (DiagVertex.add u v) w =
      DiagVertex.add u (DiagVertex.add v w) := by
  funext i
  simp [DiagVertex.add, Nat.add_assoc]

lemma freeSub_length (free el : List DiagVertex) :
    (freeSub free el).length = free.length := by
  simp [freeSub]

lemma freeSub_getD {free el : List DiagVertex} {A : ℕ}
    (hA : A < free.length) :
    (freeSub free el).getD A DiagVertex.zero =
      (free.getD A DiagVertex.zero).sub (el.getD A DiagVertex.zero) := by
  unfold freeSub
  rw [List.getD_eq_getElem _ _ (by simpa using hA), List.getElem_map,
    List.getElem_range]

lemma compat_slot {S : ℕ} {free elc : List DiagVertex}
    (h : compatibleContr S free elc = true) {A : ℕ} (hA : A < free.length)
    {i : Fin 8} (hi : i.val < S) :
    ((elc.getD A DiagVertex.zero) i).1 ≤ ((free.getD A DiagVertex.zero) i).1 ∧
    ((elc.getD A DiagVertex.zero) i).2 ≤ ((free.getD A DiagVertex.zero) i).2
    := by
  unfold compatibleContr at h
  simp only [List.all_eq_true, List.mem_range, Bool.and_eq_true,
    decide_eq_true_eq] at h
  rcases h A hA i.val hi with ⟨h3, h4⟩
  unfold DiagVertex.cre at h3
  unfold DiagVertex.ann at h4
  rw [dif_pos i.isLt, dif_pos i.isLt] at h3 h4
  exact ⟨h3, h4⟩

lemma elsub_exact {S : ℕ} {free elc : List DiagVertex}
    (hcompat : compatibleContr S free elc = true)
    (hsupp : ∀ v ∈ elc, ∀ i : Fin 8, S ≤ i.val → v i = (0, 0))
    {A : ℕ} (hA : A < free.length) :
    DiagVertex.add (elc.getD A DiagVertex.zero)
      ((free.getD A DiagVertex.zero).sub (elc.getD A DiagVertex.zero)) =
      free.getD A DiagVertex.zero := by
  funext i
  by_cases hi : i.val < S
  · rcases compat_slot hcompat hA hi with ⟨h1, h2⟩
    simp only [DiagVertex.add, DiagVertex.sub]
    refine Prod.ext ?_ ?_
    · simp only
      omega
    · simp only
      omega
  · have hz : (elc.getD A DiagVertex.zero) i = (0, 0) := by
      by_cases hAe : A < elc.length
      · rw [List.getD_eq_getElem _ _ hAe]
        exact hsupp _ (List.getElem_mem _) i (by omega)
      · rw [List.getD_eq_default _ _ (by omega)]
        rfl
    simp only [DiagVertex.add, DiagVertex.sub, hz]
    refine Prod.ext ?_ ?_
    · simp
    · simp

lemma conservation_of_path {S : ℕ} {el : List (List DiagVertex)}
    (hel : ∀ e ∈ el, ∀ v ∈ e, ∀ i : Fin 8, S ≤ i.val → v i = (0, 0)) :
    ∀ (t : List ℕ) (free : List DiagVertex), pathValid S el free t →
    ∀ A, A < free.length →
      DiagVertex.add (stackVertexSum el t A)
        ((freeAfter el free t).getD A DiagVertex.zero) =
        free.getD A DiagVertex.zero := by
  intro t
  induction t with
  | nil =>
    intro free _ A _
    exact DiagVertex.zero_add _
  | cons c t ih =>
    intro free hpv A hA
    rcases hpv with ⟨⟨hclen, hcompat⟩, hpv2⟩
    have hA2 : A < (freeSub free (el.getD c [])).length := by
      rw [freeSub_length]
      exact hA
    have hih := ih (freeSub free (el.getD c [])) hpv2 A hA2
    have hih2 : DiagVertex.add (stackVertexSum el t A)
        ((freeAfter el (freeSub free (el.getD c [])) t).getD A
          DiagVertex.zero) =
        (free.getD A DiagVertex.zero).sub
          ((el.getD c []).getD A DiagVertex.zero) :=
      hih.trans (freeSub_getD hA)
    have hsupp : ∀ v ∈ el.getD c [], ∀ i : Fin 8, S ≤ i.val →
        v i = (0, 0) := by
      intro v hv i hi
      rw [List.getD_eq_getElem _ _ hclen] at hv
      exact hel _ (List.getElem_mem _) v hv i hi
    show DiagVertex.add
        (DiagVertex.add ((el.getD c []).getD A DiagVertex.zero)
          (stackVertexSum el t A))
        ((freeAfter el (freeSub free (el.getD c [])) t).getD A
          DiagVertex.zero) = free.getD A DiagVertex.zero
    rw [DiagVertex.add_assoc, hih2]
    exact elsub_exact hcompat hsupp hA

lemma le_of_add_eq {x y z : DiagVertex} (h : DiagVertex.add x y = z) :
    DiagVertex.le x z := by
  intro i
  have hi := congrFun h i
  simp only [DiagVertex.add] at hi
  rw [← hi]
  constructor
  · exact Nat.le_add_right _ _
  · exact Nat.le_add_right _ _

/-- C7: the composite backtracking generator records the stack exactly when
the free rank lies in `[minrank, maxrank]`; candidates are precisely the
elementary indices `c ≥` the last stacked index that fit the free legs;
recorded composites are non-decreasing index sequences, pairwise distinct,
and distinct recorded composites denote distinct multisets. -/
theorem backtracking_enumeration (osi : OSI) (el : List (List DiagVertex))
    (ops : List DiagOperator) (minrank maxrank : ℤ) :
    (∀ (stack : List ℕ) (free : List DiagVertex),
      stack ∈ process_contraction stack free minrank maxrank ↔
        minrank ≤ (vertices_rank free : ℤ) ∧
        (vertices_rank free : ℤ) ≤ maxrank) ∧
    (∀ (stack : List ℕ) (free : List DiagVertex) (c : ℕ),
      c ∈ construct_candidates osi.num_spaces el stack free ↔
        stack.getLast?.getD 0 ≤ c ∧ c < el.length ∧
        compatibleContr osi.num_spaces free (el.getD c []) = true) ∧
    (∀ cs ∈ generate_composite_contractions osi el ops minrank maxrank,
      minrank ≤ (vertices_rank
          (freeAfter el (ops.map DiagOperator.vertex) cs) : ℤ) ∧
      (vertices_rank (freeAfter el (ops.map DiagOperator.vertex) cs) : ℤ)
        ≤ maxrank) ∧
    (∀ cs ∈ generate_composite_contractions osi el ops minrank maxrank,
      List.Chain' (· ≤ ·) cs) ∧
    (generate_composite_contractions osi el ops minrank maxrank).Nodup ∧
    (∀ cs ∈ generate_composite_contractions osi el ops minrank maxrank,
      ∀ cs' ∈ generate_composite_contractions osi el ops minrank maxrank,
      (cs : Multiset ℕ) = (cs' : Multiset ℕ) → cs = cs') := by
  refine ⟨?_, ?_, ?_, ?_, ?_, ?_⟩
  · intro stack free
    constructor
    · intro h
      exact (mem_process_contraction h).2
    · intro h
      unfold process_contraction
      rw [if_pos h]
      simp
  · intro stack free c
    exact mem_construct_candidates
  · intro cs h
    rcases btNode_band _ _ _ _ h with ⟨t, rfl, _, hb1, hb2⟩
    simpa using ⟨hb1, hb2⟩
  · intro cs h
    exact btNode_chain _ _ _ List.chain'_nil cs h
  · exact btNode_nodup _ _ _
  · intro cs hcs cs' hcs' hms
    have h1 : List.Sorted (· ≤ ·) cs :=
      List.chain'_iff_pairwise.mp (btNode_chain _ _ _ List.chain'_nil cs hcs)
    have h2 : List.Sorted (· ≤ ·) cs' :=
      List.chain'_iff_pairwise.mp
        (btNode_chain _ _ _ List.chain'_nil cs' hcs')
    exact List.eq_of_perm_of_sorted (Multiset.coe_eq_coe.mp hms) h1 h2

/-- Witness for C7: in the `f`/`t` example the composite `[0, 1]` is
recorded, is non-decreasing, and its free rank is in the band. -/
theorem backtracking_enumeration_witness :
    [0, 1] ∈ generate_composite_contractions wOsiOV wEl [wOpF, wOpT] 0 100 ∧
    List.Chain' (· ≤ ·) [0, 1] ∧
    (0 ≤ (vertices_rank
      (freeAfter wEl ([wOpF, wOpT].map DiagOperator.vertex) [0, 1]) : ℤ) ∧
     (vertices_rank
      (freeAfter wEl ([wOpF, wOpT].map DiagOperator.vertex) [0, 1]) : ℤ)
        ≤ 100) :=
  ⟨by decide,
    (backtracking_enumeration wOsiOV wEl [wOpF, wOpT] 0 100).2.2.2.1 [0, 1]
      (by decide),
    (backtracking_enumeration wOsiOV wEl [wOpF, wOpT] 0 100).2.2.1 [0, 1]
      (by decide)⟩

/-- C8: leg conservation along the backtracking: for every recorded
composite, the componentwise sum of its elementary contractions plus the
remaining free vertices equals the original operator vertices, and the sum
never exceeds the operator vertices (free legs stay non-negative). -/
theorem backtracking_leg_conservation (osi : OSI)
    (el : List (List DiagVertex)) (ops : List DiagOperator)
    (minrank maxrank : ℤ)
    (hel : ∀ e ∈ el, ∀ v ∈ e, ∀ i : Fin 8,
      osi.num_spaces ≤ i.val → v i = (0, 0)) :
    ∀ cs ∈ generate_composite_contractions osi el ops minrank maxrank,
    ∀ A, A < ops.length →
      DiagVertex.add (stackVertexSum el cs A)
        ((freeAfter el (ops.map DiagOperator.vertex) cs).getD A
          DiagVertex.zero) =
        (ops.map DiagOperator.vertex).getD A DiagVertex.zero ∧
      DiagVertex.le (stackVertexSum el cs A)
        ((ops.map DiagOperator.vertex).getD A DiagVertex.zero) := by
  intro cs h A hA
  rcases btNode_band _ _ _ _ h with ⟨t, ht, hpv, _⟩
  have ht' : cs = t := by simpa using ht
  subst ht'
  have hcons := conservation_of_path hel cs (ops.map DiagOperator.vertex)
    hpv A (by simpa using hA)
  refine ⟨hcons, ?_⟩
  exact le_of_add_eq hcons

/-- Witness for C8 at the `f`/`t` example, composite `[0]`, position `0`. -/
theorem backtracking_leg_conservation_witness :
    (∀ e ∈ wEl, ∀ v ∈ e, ∀ i : Fin 8,
      wOsiOV.num_spaces ≤ i.val → v i = (0, 0)) ∧
    ([0] ∈ generate_composite_contractions wOsiOV wEl [wOpF, wOpT] 0 100) ∧
    (DiagVertex.add (stackVertexSum wEl [0] 0)
        ((freeAfter wEl ([wOpF, wOpT].map DiagOperator.vertex) [0]).getD 0
          DiagVertex.zero) =
        ([wOpF, wOpT].map DiagOperator.vertex).getD 0 DiagVertex.zero ∧
      DiagVertex.le (stackVertexSum wEl [0] 0)
        (([wOpF, wOpT].map DiagOperator.vertex).getD 0 DiagVertex.zero)) :=
  ⟨by decide, by decide,
    backtracking_leg_conservation wOsiOV wEl [wOpF, wOpT] 0 100 (by decide)
      [0] (by decide) 0 (by decide)⟩

/-! ### Canonicalization lemmas (C9, C4, C3) -/

lemma testBit_bitMask {l : List ℕ} {k : ℕ} :
    Nat.testBit (bitMask l) k = true ↔ k ∈ l := by
  induction l with
  | nil => simp [bitMask]
  | cons x rest ih =>
    unfold bitMask
    rw [Nat.testBit_lor]
    simp only [Bool.or_eq_true, Nat.testBit_two_pow, decide_eq_true_eq,
      List.mem_cons, ih]
    constructor
    · rintro (h | h)
      · exact Or.inl h.symm
      · exact Or.inr h
    · rintro (h | h)
      · exact Or.inl h.symm
      · exact Or.inr h

lemma land_eq_right_iff {a b : ℕ} :
    (a &&& b) = b ↔ ∀ k, Nat.testBit b k = true → Nat.testBit a k = true := by
  constructor
  · intro h k hk
    have h2 := congrArg (fun n => Nat.testBit n k) h
    simp only [Nat.testBit_land] at h2
    rw [hk] at h2
    simpa using h2
  · intro h
    refine Nat.eq_of_testBit_eq (fun k => ?_)
    rw [Nat.testBit_land]
    by_cases hb : Nat.testBit b k = true
    · rw [hb, h k hb]
      rfl
    · rw [Bool.not_eq_true] at hb
      rw [hb]
      simp

lemma range_getD {n j : ℕ} (h : j < n) : (List.range n).getD j 0 = j := by
  rw [List.getD_eq_getElem _ _ (by simpa using h)]
  exact List.getElem_range _ _

/-- Membership characterization of the `allowed` test: a permutation passes
iff, for every position `i`, every original left-connected neighbour of the
operator placed at `i` is among the operators placed before `i`. -/
lemma perm_allowed_iff {el : List (List DiagVertex)} {cv : List ℕ}
    {nops : ℕ} {p : List ℕ} :
    perm_allowed el cv nops p = true ↔
      ∀ i < nops, ∀ j, connectedb el cv j (p.getD i 0) = true →
        j < p.getD i 0 → j ∈ (List.range i).map (fun j' => p.getD j' 0) := by
  unfold perm_allowed
  simp only [List.all_eq_true, List.mem_range, beq_iff_eq]
  constructor
  · intro h i hi j hconn hj
    have h2 := (land_eq_right_iff).mp (h i hi)
    have hmem : j ∈ (List.range (p.getD i 0)).filter
        (fun j' => connectedb el cv j' (p.getD i 0)) :=
      List.mem_filter.mpr ⟨List.mem_range.mpr hj, hconn⟩
    have h3 := h2 j (testBit_bitMask.mpr hmem)
    exact testBit_bitMask.mp h3
  · intro h i hi
    refine (land_eq_right_iff).mpr (fun k hk => ?_)
    rcases List.mem_filter.mp (testBit_bitMask.mp hk) with ⟨hk1, hk2⟩
    exact testBit_bitMask.mpr
      (h i hi k hk2 (List.mem_range.mp hk1))

lemma self_mem_insertAll (x : ℕ) (xs : List ℕ) :
    x :: xs ∈ insertAll x xs := by
  cases xs <;> simp [insertAll]

lemma self_mem_allPerms (t : List ℕ) : t ∈ allPerms t := by
  induction t with
  | nil => simp [allPerms]
  | cons x xs ih =>
    exact List.mem_flatMap.mpr ⟨xs, ih, self_mem_insertAll x xs⟩

lemma perm_of_mem_insertAll {x : ℕ} :
    ∀ {ys l : List ℕ}, l ∈ insertAll x ys → l.Perm (x :: ys) := by
  intro ys
  induction ys with
  | nil =>
    intro l h
    simp only [insertAll, List.mem_singleton] at h
    subst h
    exact List.Perm.refl _
  | cons y ys ih =>
    intro l h
    simp only [insertAll, List.mem_cons, List.mem_map] at h
    rcases h with h | ⟨l', hl', rfl⟩
    · subst h
      exact List.Perm.refl _
    · exact (List.Perm.cons y (ih hl')).trans (List.Perm.swap x y ys)

lemma mem_insertAll_split (x : ℕ) :
    ∀ (pre suf : List ℕ), pre ++ x :: suf ∈ insertAll x (pre ++ suf) := by
  intro pre
  induction pre with
  | nil =>
    intro suf
    exact self_mem_insertAll x suf
  | cons y pre ih =>
    intro suf
    simp only [List.cons_append, insertAll, List.mem_cons, List.mem_map]
    exact Or.inr ⟨pre ++ x :: suf, ih suf, rfl⟩

lemma mem_allPerms_iff : ∀ {t l : List ℕ}, l ∈ allPerms t ↔ l.Perm t := by
  intro t
  induction t with
  | nil =>
    intro l
    simp only [allPerms, List.mem_singleton]
    constructor
    · rintro rfl
      exact List.Perm.refl _
    · intro h
      exact h.eq_nil
  | cons x xs ih =>
    intro l
    simp only [allPerms, List.mem_flatMap]
    constructor
    · rintro ⟨m, hm, hl⟩
      exact (perm_of_mem_insertAll hl).trans (List.Perm.cons x (ih.mp hm))
    · intro h
      have hx : x ∈ l := h.mem_iff.mpr (List.mem_cons_self _ _)
      rcases List.append_of_mem hx with ⟨pre, suf, rfl⟩
      have h2 : (pre ++ suf).Perm xs := by
        have h3 : (x :: (pre ++ suf)).Perm (x :: xs) :=
          (List.perm_middle).symm.trans h
        exact h3.cons_inv
      exact ⟨pre ++ suf, ih.mpr h2, mem_insertAll_split x pre suf⟩

lemma identity_allowed {el : List (List DiagVertex)} {cv : List ℕ}
    {nops : ℕ} : perm_allowed el cv nops (List.range nops) = true := by
  rw [perm_allowed_iff]
  intro i hi j hconn hj
  rw [range_getD hi] at hj
  exact List.mem_map.mpr ⟨j, List.mem_range.mpr hj,
    range_getD (by omega)⟩

lemma scoresOf_ne_nil (el : List (List DiagVertex))
    (ops : List DiagOperator) (cv : List ℕ) : scoresOf el ops cv ≠ [] := by
  unfold scoresOf
  intro h
  rw [List.map_eq_nil_iff] at h
  have : List.range ops.length ∈ (allPerms (List.range ops.length)).filter
      (perm_allowed el cv ops.length) :=
    List.mem_filter.mpr ⟨self_mem_allPerms _, identity_allowed⟩
  rw [h] at this
  cases this

/-- C9: `canonicalize_contraction` fails (the C++ `throw`) iff some operator
has an odd total number of sqop legs; for all-even operator strings it
always succeeds. -/
theorem canonicalize_error_iff_odd (el : List (List DiagVertex))
    (ops : List DiagOperator) (cv : List ℕ) :
    (canonicalize_contraction el ops cv).isOk = true ↔
      ∀ op ∈ ops, op.num_ops % 2 = 0 := by
  unfold canonicalize_contraction
  by_cases hodd : ops.any (fun op => op.num_ops % 2 != 0) = true
  · rw [if_pos hodd]
    simp only [List.any_eq_true, bne_iff_ne, ne_eq] at hodd
    rcases hodd with ⟨op, hmem, hne⟩
    constructor
    · intro h
      cases h
    · intro h
      exact absurd (h op hmem) hne
  · rw [if_neg hodd]
    simp only [List.any_eq_true, bne_iff_ne, ne_eq, not_exists, not_and,
      not_not] at hodd
    cases hs : (scoresOf el ops cv).insertionSort scoreLe with
    | nil =>
      exfalso
      have hlen := List.length_insertionSort scoreLe (scoresOf el ops cv)
      rw [hs] at hlen
      exact scoresOf_ne_nil el ops cv
        (List.eq_nil_of_length_eq_zero hlen.symm)
    | cons best rest =>
      simp only [Except.isOk]
      constructor
      · intro _
        exact hodd
      · intro _
        rfl

lemma enc_length (v : DiagVertex) : v.enc.length = 16 := rfl

lemma encVertexList_length (l : List DiagVertex) :
    (encVertexList l).length = 16 * l.length := by
  induction l with
  | nil => rfl
  | cons v rest ih =>
    unfold encVertexList at ih ⊢
    rw [List.flatMap_cons, List.length_append, ih, enc_length,
      List.length_cons]
    ring

lemma sortKey_snd_inj {pc pc' : List DiagVertex} {i i' : ℕ}
    (hl : pc.length = pc'.length) (h : sortKey pc i = sortKey pc' i') :
    i = i' := by
  unfold sortKey at h
  have hlen : (encVertexList pc).length = (encVertexList pc').length := by
    rw [encVertexList_length, encVertexList_length, hl]
  have := (List.append_inj h hlen).2
  simpa using this

lemma permutedContr_length (contractions : List (List DiagVertex))
    (nops : ℕ) (p : List ℕ) (i : ℕ) :
    (permutedContr contractions nops p i).length = nops := by
  simp [permutedContr]

lemma contrPairs_mem_form {contractions : List (List DiagVertex)}
    {nops : ℕ} {p : List ℕ} {x : List DiagVertex × ℕ}
    (h : x ∈ contrPairs contractions nops p) :
    x = (permutedContr contractions nops p x.2, x.2) := by
  rcases List.mem_map.mp h with ⟨i, _, he⟩
  rw [← he]

lemma contrPairs_nodup (contractions : List (List DiagVertex)) (nops : ℕ)
    (p : List ℕ) : (contrPairs contractions nops p).Nodup := by
  refine List.Nodup.map ?_ (List.nodup_range _)
  intro a b hab
  exact congrArg Prod.snd hab

lemma map_snd_contrPairs (contractions : List (List DiagVertex)) (nops : ℕ)
    (p : List ℕ) :
    (contrPairs contractions nops p).map Prod.snd =
      List.range contractions.length := by
  unfold contrPairs
  rw [List.map_map]
  exact List.map_id _

/-- C4: the acceptance condition of `canonicalize_contraction` is exactly
the left-neighbour containment; for each permutation the contraction
permutation is the unique strictly key-sorted ordering of the permuted
contractions (ties broken by original index); and the returned
representative carries the lexicographically minimal signature over all
accepted permutations. -/
theorem canonicalize_permutation_structure (el : List (List DiagVertex))
    (ops : List DiagOperator) (cv : List ℕ) (hN : ops.length ≤ 64)
    (heven : ∀ op ∈ ops, op.num_ops % 2 = 0) :
    (∀ p : List ℕ, perm_allowed el cv ops.length p = true ↔
      ∀ i < ops.length, ∀ j, connectedb el cv j (p.getD i 0) = true →
        j < p.getD i 0 → j ∈ (List.range i).map (fun j' => p.getD j' 0)) ∧
    (∀ p : List ℕ,
      (contrPermOf (cv.map (fun c => el.getD c [])) ops.length p).Perm
        (List.range (cv.map (fun c => el.getD c [])).length) ∧
      List.Pairwise (fun i1 i2 =>
        sortKey (permutedContr (cv.map (fun c => el.getD c []))
          ops.length p i1) i1 <
        sortKey (permutedContr (cv.map (fun c => el.getD c []))
          ops.length p i2) i2)
        (contrPermOf (cv.map (fun c => el.getD c [])) ops.length p) ∧
      (∀ ρ : List ℕ,
        ρ.Perm (List.range (cv.map (fun c => el.getD c [])).length) →
        List.Pairwise (fun i1 i2 =>
          sortKey (permutedContr (cv.map (fun c => el.getD c []))
            ops.length p i1) i1 <
          sortKey (permutedContr (cv.map (fun c => el.getD c []))
            ops.length p i2) i2) ρ →
        ρ = contrPermOf (cv.map (fun c => el.getD c [])) ops.length p)) ∧
    (∃ best ∈ scoresOf el ops cv,
      canonicalize_contraction el ops cv =
        Except.ok (best.2.1.map (getOp ops),
          best.2.2.map (fun c =>
            (cv.map (fun c' => el.getD c' [])).getD c [])) ∧
      ∀ sc ∈ scoresOf el ops cv, best.1 ≤ sc.1) := by
  refine ⟨fun p => perm_allowed_iff, fun p => ?_, ?_⟩
  · set contractions := cv.map (fun c => el.getD c []) with hcdef
    set pairs := contrPairs contractions ops.length p with hpdef
    set sorted := pairs.insertionSort pairLe with hsdef
    have hperm : sorted.Perm pairs := List.perm_insertionSort _ _
    have hsortedP : List.Sorted pairLe sorted :=
      List.sorted_insertionSort pairLe pairs
    have hσperm : (contrPermOf contractions ops.length p).Perm
        (List.range contractions.length) := by
      have h2 := hperm.map Prod.snd
      rw [map_snd_contrPairs] at h2
      exact h2
    have hforms : ∀ x ∈ sorted,
        x = (permutedContr contractions ops.length p x.2, x.2) :=
      fun x hx => contrPairs_mem_form (hperm.mem_iff.mp hx)
    have hnodup : sorted.Nodup :=
      (hperm.nodup_iff).mpr (contrPairs_nodup _ _ _)
    have hpairwise : List.Pairwise
        (fun x y : List DiagVertex × ℕ => pairLe x y ∧ x ≠ y) sorted :=
      hsortedP.and hnodup
    have hstrict : List.Pairwise (fun i1 i2 =>
        sortKey (permutedContr contractions ops.length p i1) i1 <
        sortKey (permutedContr contractions ops.length p i2) i2)
        (contrPermOf contractions ops.length p) := by
      rw [contrPermOf, ← hpdef, ← hsdef, List.pairwise_map]
      refine List.Pairwise.imp_of_mem ?_ hpairwise
      intro x y hx hy hxy
      obtain ⟨x1, x2⟩ := x
      obtain ⟨y1, y2⟩ := y
      have hfx := hforms _ hx
      have hfy := hforms _ hy
      simp only [Prod.mk.injEq] at hfx hfy
      obtain ⟨hfx1, -⟩ := hfx
      obtain ⟨hfy1, -⟩ := hfy
      subst hfx1
      subst hfy1
      rcases hxy with ⟨hle, hne⟩
      refine lt_of_le_of_ne hle ?_
      intro hkeq
      have h22 : x2 = y2 := sortKey_snd_inj
        (by rw [permutedContr_length, permutedContr_length]) hkeq
      subst h22
      exact hne rfl
    refine ⟨hσperm, hstrict, ?_⟩
    intro ρ hρperm hρpair
    haveI : IsAntisymm ℕ (fun i1 i2 =>
        sortKey (permutedContr contractions ops.length p i1) i1 <
        sortKey (permutedContr contractions ops.length p i2) i2) :=
      ⟨fun a b h1 h2 => absurd (lt_trans h1 h2) (lt_irrefl _)⟩
    exact List.eq_of_perm_of_sorted (hρperm.trans hσperm.symm) hρpair hstrict
  · have hnotodd : ¬ (ops.any (fun op => op.num_ops % 2 != 0) = true) := by
      simp only [List.any_eq_true, bne_iff_ne, ne_eq, not_exists, not_and,
        not_not]
      exact heven
    cases hs : (scoresOf el ops cv).insertionSort scoreLe with
    | nil =>
      exfalso
      have hlen := List.length_insertionSort scoreLe (scoresOf el ops cv)
      rw [hs] at hlen
      exact scoresOf_ne_nil el ops cv
        (List.eq_nil_of_length_eq_zero hlen.symm)
    | cons best rest =>
      have hperm : ((scoresOf el ops cv).insertionSort scoreLe).Perm
          (scoresOf el ops cv) := List.perm_insertionSort _ _
      have hbestmem : best ∈ scoresOf el ops cv := by
        rw [← hperm.mem_iff, hs]
        exact List.mem_cons_self _ _
      refine ⟨best, hbestmem, ?_, ?_⟩
      · unfold canonicalize_contraction
        rw [if_neg hnotodd, hs]
      · intro sc hsc
        have hsc2 : sc ∈ best :: rest := by
          rw [← hs]
          exact hperm.symm.subset hsc
        have hsorted : List.Sorted scoreLe (best :: rest) := by
          rw [← hs]
          exact List.sorted_insertionSort scoreLe (scoresOf el ops cv)
        rcases List.mem_cons.mp hsc2 with rfl | hsc3
        · exact le_refl _
        · rcases List.rel_of_sorted_cons hsorted sc hsc3 with h | ⟨h, _⟩
          · exact le_of_lt h
          · exact le_of_eq h

/-- Witness for C4 at the `f`/`t` example with the full composite `[0, 1]`
and permutation `[0, 1]`: the contraction permutation is a permutation of
`range 2`. -/
theorem canonicalize_permutation_structure_witness :
    ([wOpF, wOpT] : List DiagOperator).length ≤ 64 ∧
    (∀ op ∈ ([wOpF, wOpT] : List DiagOperator), op.num_ops % 2 = 0) ∧
    (contrPermOf (([0, 1] : List ℕ).map (fun c => wEl.getD c [])) 2
      [0, 1]).Perm (List.range 2) :=
  ⟨by decide, by decide,
    ((canonicalize_permutation_structure wEl [wOpF, wOpT] [0, 1] (by decide)
      (by decide)).2.1 [0, 1]).1⟩

/-- Counterexample for C3: with two unconnected even operators `b`, `a` (in
that order) and the empty composite, canonicalization reorders the operators
to `[a, b]`, yet `process_contractions` hands `evaluate_contraction` the
ORIGINAL list `[b, a]`. -/
theorem process_contractions_original_ops_counterexample :
    process_contractions_calls [] [wOpB, wOpA] 0 100 [[]] =
      Except.ok [([wOpB, wOpA], [])] ∧
    canonicalize_contraction [] [wOpB, wOpA] [] =
      Except.ok ([wOpA, wOpB], []) ∧
    ([wOpB, wOpA] : List DiagOperator) ≠ [wOpA, wOpB] :=
  ⟨by decide, by decide, by decide⟩

/-- C3 (amended): every call to `evaluate_contraction` receives the
operators in their ORIGINAL order together with the contraction list
reordered by `canonicalize_contraction`; the reordered operator list is
discarded. -/
theorem process_contractions_passes_original_ops
    (el : List (List DiagVertex)) (ops : List DiagOperator)
    (minrank maxrank : ℤ) (ctrs : List (List ℕ))
    (calls : List (List DiagOperator × List (List DiagVertex)))
    (h : process_contractions_calls el ops minrank maxrank ctrs =
      Except.ok calls) :
    ∀ call ∈ calls, call.1 = ops ∧ ∃ cv ∈ ctrs, ∃ oc,
      canonicalize_contraction el ops cv = Except.ok oc ∧
      call.2 = oc.2 := by
  induction ctrs generalizing calls with
  | nil =>
    rw [process_contractions_calls] at h
    cases h
    intro call hc
    cases hc
  | cons cv rest ih =>
    rw [process_contractions_calls] at h
    by_cases hband : minrank ≤ (operators_rank ops : ℤ) -
        ((cv.map (fun c => vertices_rank (el.getD c []))).sum : ℤ) ∧
        (operators_rank ops : ℤ) -
        ((cv.map (fun c => vertices_rank (el.getD c []))).sum : ℤ) ≤ maxrank
    · rw [if_pos hband] at h
      cases hcanon : canonicalize_contraction el ops cv with
      | error e =>
        rw [hcanon] at h
        cases h
      | ok oc =>
        rw [hcanon] at h
        cases hrec : process_contractions_calls el ops minrank maxrank rest
          with
        | error e =>
          rw [hrec] at h
          cases h
        | ok calls' =>
          rw [hrec] at h
          cases h
          intro call hc
          rcases List.mem_cons.mp hc with rfl | hc2
          · exact ⟨rfl, cv, List.mem_cons_self _ _, oc, hcanon, rfl⟩
          · rcases ih calls' hrec call hc2 with ⟨h1, cv', hcv', oc', h2, h3⟩
            exact ⟨h1, cv', List.mem_cons_of_mem _ hcv', oc', h2, h3⟩
    · rw [if_neg hband] at h
      intro call hc
      rcases ih calls h call hc with ⟨h1, cv', hcv', oc', h2, h3⟩
      exact ⟨h1, cv', List.mem_cons_of_mem _ hcv', oc', h2, h3⟩

/-- Witness for the amended C3 at the counterexample instance. -/
theorem process_contractions_passes_original_ops_witness :
    process_contractions_calls [] [wOpB, wOpA] 0 100 [[]] =
      Except.ok [([wOpB, wOpA], [])] ∧
    (∀ call ∈ [(([wOpB, wOpA] : List DiagOperator),
        ([] : List (List DiagVertex)))],
      call.1 = [wOpB, wOpA] ∧ ∃ cv ∈ [([] : List ℕ)], ∃ oc,
        canonicalize_contraction [] [wOpB, wOpA] cv = Except.ok oc ∧
        call.2 = oc.2) :=
  ⟨by decide,
    process_contractions_passes_original_ops [] [wOpB, wOpA] 0 100 [[]]
      [([wOpB, wOpA], [])] (by decide)⟩

/-! ### Combinatorial factor (C2) -/

lemma foldl_binomPart (S : ℕ) :
    ∀ (l : List (List DiagVertex)) (free : List DiagVertex) (a : ℚ),
    (l.foldl (fun (st : ℚ × List DiagVertex) contraction =>
      (st.1 * (combStepFactor S st.2 contraction : ℚ),
        freeSub st.2 contraction)) (a, free)).1 =
      a * (claimBinomProd S free l : ℚ) := by
  intro l
  induction l with
  | nil =>
    intro free a
    simp [claimBinomProd]
  | cons c rest ih =>
    intro free a
    rw [List.foldl_cons, ih]
    rw [show claimBinomProd S free (c :: rest) =
      combStepFactor S free c * claimBinomProd S (freeSub free c) rest from rfl]
    push_cast
    ring

/-- C2: `combinatorial_factor` returns the ordered product of the
`binomial(free, used)` choices over positions and spaces (with decrementing
free-leg counters) divided by the product of the multiplicities of the
distinct elementary contractions in the composite. -/
theorem combinatorial_factor_eq (osi : OSI) (ops : List DiagOperator)
    (contractions : List (List DiagVertex)) :
    combinatorial_factor osi ops contractions =
      (claimBinomProd osi.num_spaces (ops.map DiagOperator.vertex)
          contractions : ℚ) /
        (multiplicityProd contractions : ℚ) := by
  unfold combinatorial_factor
  have h1 := foldl_binomPart osi.num_spaces contractions
    (ops.map DiagOperator.vertex) 1
  rw [h1]
  have h2 : ∀ (l : List (List DiagVertex)) (f : ℚ),
      l.foldl (fun g contr =>
        g / (binomial (contractions.count contr) 1 : ℚ)) f =
      f / ((l.map (fun c => contractions.count c)).prod : ℚ) := by
    intro l
    induction l with
    | nil =>
      intro f
      simp
    | cons c rest ih =>
      intro f
      rw [List.foldl_cons, ih, div_div, binomial, Nat.choose_one_right,
        List.map_cons, List.prod_cons]
      push_cast
      ring
  rw [h2]
  unfold multiplicityProd
  rw [one_mul]

/-! ### The evaluator (C1): sqop layout lemmas -/

lemma lookupKey_mem {α : Type} [DecidableEq α] {k : α} {n : ℕ} :
    ∀ {m : List (α × ℕ)}, lookupKey k m = some n → (k, n) ∈ m := by
  intro m
  induction m with
  | nil =>
    intro h
    exact absurd h (by simp [lookupKey])
  | cons e rest ih =>
    obtain ⟨k', v⟩ := e
    intro h
    rw [show lookupKey k ((k', v) :: rest) =
      (if k' = k then some v else lookupKey k rest) from rfl] at h
    by_cases hk : k' = k
    · rw [if_pos hk] at h
      injection h with h
      subst hk h
      exact List.mem_cons_self _ _
    · rw [if_neg hk] at h
      exact List.mem_cons_of_mem _ (ih h)

lemma assignIndicesGo_length (l : List (ℕ × Bool × ℕ × ℕ)) :
    ∀ ic, (assignIndicesGo ic l).length = l.length := by
  induction l with
  | nil =>
    intro ic
    rfl
  | cons e rest ih =>
    obtain ⟨o, iscre, s, slot⟩ := e
    intro ic
    simp only [assignIndicesGo, List.length_cons]
    rw [ih]

lemma assignIndicesGo_getD_type (l : List (ℕ × Bool × ℕ × ℕ)) :
    ∀ ic (n : ℕ), n < l.length →
    ((assignIndicesGo ic l).getD n (0, dummySQ)).2.type =
      (if (l.getD n dummyEntry).2.1 then SQOperatorType.Creation
        else SQOperatorType.Annihilation) := by
  induction l with
  | nil =>
    intro ic n h
    exact absurd h (by simp)
  | cons e rest ih =>
    obtain ⟨o, iscre, s, slot⟩ := e
    intro ic n h
    cases n with
    | zero => rfl
    | succ m =>
      simp only [assignIndicesGo, List.getD_cons_succ]
      exact ih _ m (by simpa using h)

lemma getD_map_snd {α β : Type} (l : List (α × β)) (n : ℕ) (d : β)
    (d' : α × β) (h : n < l.length) :
    (l.map Prod.snd).getD n d = (l.getD n d').2 := by
  rw [List.getD_eq_getElem _ _ (by simpa using h), List.getD_eq_getElem _ _ h]
  simp

lemma opMap_lookup_type (S : ℕ) (ops : List DiagOperator)
    {k : ℕ × ℕ × Bool × ℕ} {n : ℕ}
    (h : lookupKey k (opMapOf S ops) = some n) :
    n < (taggedSqops S ops).length ∧
    (((taggedSqops S ops).map Prod.snd).getD n dummySQ).type =
      (if k.2.2.1 then SQOperatorType.Creation
        else SQOperatorType.Annihilation) := by
  have hmem := lookupKey_mem h
  unfold opMapOf at hmem
  rw [List.mem_map] at hmem
  obtain ⟨m, hm, he⟩ := hmem
  rw [List.mem_range] at hm
  have h1 : entryKey ((allEntries S ops).getD m dummyEntry) = k :=
    congrArg Prod.fst he
  have h2 : m = n := congrArg Prod.snd he
  subst h2
  have hlen : (taggedSqops S ops).length = (allEntries S ops).length := by
    unfold taggedSqops
    exact assignIndicesGo_length _ _
  refine ⟨by rw [hlen]; exact hm, ?_⟩
  rw [getD_map_snd _ _ _ (0, dummySQ) (by rw [hlen]; exact hm)]
  unfold taggedSqops
  rw [assignIndicesGo_getD_type (allEntries S ops) (fun _ => 0) m hm]
  rw [← h1]
  rfl

lemma collectLookups_spec (opMap : List ((ℕ × ℕ × Bool × ℕ) × ℕ)) (v s : ℕ)
    (creation : Bool) :
    ∀ (m off : ℕ) (ps : List ℕ),
    collectLookups opMap v s creation off m = some ps →
    ps.length = m ∧
    ∀ p ∈ ps, ∃ i : ℕ, lookupKey (v, s, creation, i) opMap = some p := by
  intro m
  induction m with
  | zero =>
    intro off ps h
    have h' : (some ([] : List ℕ) : Option (List ℕ)) = some ps := h
    injection h' with h'
    subst h'
    exact ⟨rfl, fun p hp => absurd hp (List.not_mem_nil p)⟩
  | succ m ih =>
    intro off ps h
    have h' : (match lookupKey (v, s, creation, off) opMap with
      | none => none
      | some p =>
        match collectLookups opMap v s creation (off + 1) m with
        | none => none
        | some ps' => some (p :: ps')) = some ps := h
    cases hl : lookupKey (v, s, creation, off) opMap with
    | none =>
      rw [hl] at h'
      exact absurd h' (by simp)
    | some p =>
      rw [hl] at h'
      cases hc : collectLookups opMap v s creation (off + 1) m with
      | none =>
        rw [hc] at h'
        exact absurd h' (by simp)
      | some ps' =>
        rw [hc] at h'
        injection h' with h'
        subst h'
        obtain ⟨hlen, hall⟩ := ih (off + 1) ps' hc
        refine ⟨by simp [hlen], ?_⟩
        intro p' hp'
        rcases List.mem_cons.mp hp' with h1 | h1
        · subst h1
          exact ⟨off, hl⟩
        · exact hall p' h1

lemma range_map_getD {α β : Type} (l : List α) (d : α) (f : α → β) :
    (List.range l.length).map (fun v => f (l.getD v d)) = l.map f := by
  induction l with
  | nil => rfl
  | cons a t ih =>
    rw [List.length_cons, List.range_succ_eq_map, List.map_cons,
      List.map_cons, List.map_map]
    congr 1

lemma vvtpGo_spec (opMap : List ((ℕ × ℕ × Bool × ℕ) × ℕ)) (s : ℕ)
    (creation : Bool) (vec : List DiagVertex) :
    ∀ (vs : List ℕ) (offsets : List DiagVertex) (ps : List ℕ)
      (off' : List DiagVertex),
    vvtpGo opMap s creation vec vs offsets = some (ps, off') →
    ps.length = (vs.map (fun v =>
      if creation then (vec.getD v DiagVertex.zero).cre s
      else (vec.getD v DiagVertex.zero).ann s)).sum ∧
    ∀ p ∈ ps, ∃ q : ℕ × ℕ,
      lookupKey (q.1, s, creation, q.2) opMap = some p := by
  intro vs
  induction vs with
  | nil =>
    intro offsets ps off' h
    have h' : (some (([] : List ℕ), offsets) :
        Option (List ℕ × List DiagVertex)) = some (ps, off') := h
    injection h' with h'
    have h1 : ps = [] := (congrArg Prod.fst h').symm
    subst h1
    exact ⟨rfl, fun p hp => absurd hp (List.not_mem_nil p)⟩
  | cons v vs ih =>
    intro offsets ps off' h
    have h' : (match collectLookups opMap v s creation
        (if creation then (offsets.getD v DiagVertex.zero).cre s
          else (offsets.getD v DiagVertex.zero).ann s)
        (if creation then (vec.getD v DiagVertex.zero).cre s
          else (vec.getD v DiagVertex.zero).ann s) with
      | none => none
      | some cl =>
        match vvtpGo opMap s creation vec vs
            (offsets.set v
              (if creation then
                (offsets.getD v DiagVertex.zero).set_cre s
                  ((offsets.getD v DiagVertex.zero).cre s +
                    (vec.getD v DiagVertex.zero).cre s)
              else
                (offsets.getD v DiagVertex.zero).set_ann s
                  ((offsets.getD v DiagVertex.zero).ann s +
                    (vec.getD v DiagVertex.zero).ann s))) with
        | none => none
        | some (rest, final) => some (cl ++ rest, final)) =
        some (ps, off') := h
    cases hcl : collectLookups opMap v s creation
        (if creation then (offsets.getD v DiagVertex.zero).cre s
          else (offsets.getD v DiagVertex.zero).ann s)
        (if creation then (vec.getD v DiagVertex.zero).cre s
          else (vec.getD v DiagVertex.zero).ann s) with
    | none =>
      rw [hcl] at h'
      exact absurd h' (by simp)
    | some cl =>
      rw [hcl] at h'
      cases hrec : vvtpGo opMap s creation vec vs
          (offsets.set v
            (if creation then
              (offsets.getD v DiagVertex.zero).set_cre s
                ((offsets.getD v DiagVertex.zero).cre s +
                  (vec.getD v DiagVertex.zero).cre s)
            else
              (offsets.getD v DiagVertex.zero).set_ann s
                ((offsets.getD v DiagVertex.zero).ann s +
                  (vec.getD v DiagVertex.zero).ann s))) with
      | none =>
        rw [hrec] at h'
        exact absurd h' (by simp)
      | some pr =>
        obtain ⟨rest, final⟩ := pr
        rw [hrec] at h'
        injection h' with h'
        have h1 : ps = cl ++ rest := (congrArg Prod.fst h').symm
        subst h1
        obtain ⟨hclen, hcall⟩ := collectLookups_spec opMap v s creation _ _ cl hcl
        obtain ⟨hrlen, hrall⟩ := ih _ rest final hrec
        constructor
        · rw [List.length_append, hclen, hrlen, List.map_cons, List.sum_cons]
        · intro p hp
          rcases List.mem_append.mp hp with h1 | h1
          · obtain ⟨i, hi⟩ := hcall p h1
            exact ⟨(v, i), hi⟩
          · exact hrall p h1

lemma cre_fin (v : DiagVertex) (i : Fin 8) : v.cre i.val = (v i).1 := by
  unfold DiagVertex.cre
  rw [dif_pos i.isLt]

lemma ann_fin (v : DiagVertex) (i : Fin 8) : v.ann i.val = (v i).2 := by
  unfold DiagVertex.ann
  rw [dif_pos i.isLt]

lemma vertices_rank_eq_sum (contr : List DiagVertex) :
    vertices_rank contr = ∑ i : Fin 8,
      ((contr.map (fun v => v.cre i.val)).sum +
        (contr.map (fun v => v.ann i.val)).sum) := by
  induction contr with
  | nil => simp [vertices_rank]
  | cons v t ih =>
    simp only [vertices_rank, List.map_cons, List.sum_cons] at ih ⊢
    rw [ih]
    have hv : DiagVertex.rank v = ∑ i : Fin 8, ((v i).1 + (v i).2) := rfl
    rw [hv, ← Finset.sum_add_distrib]
    apply Finset.sum_congr rfl
    intro i _
    rw [cre_fin, ann_fin]
    ring

lemma touched_space_legs {contr : List DiagVertex} {s : ℕ}
    (hs : vertices_space contr = some s)
    (hbal : balancedContr contr)
    (hrank : vertices_rank contr = 2) :
    s < 8 ∧ (contr.map (fun v => v.cre s)).sum = 1 ∧
      (contr.map (fun v => v.ann s)).sum = 1 := by
  unfold vertices_space at hs
  have hmem := List.mem_of_find?_eq_some hs
  rw [List.mem_range] at hmem
  have hpred := List.find?_some hs
  rw [List.any_eq_true] at hpred
  obtain ⟨v, hv, hv0⟩ := hpred
  rw [decide_eq_true_eq] at hv0
  have hsum : ∑ i : Fin 8, ((contr.map (fun v => v.cre i.val)).sum +
      (contr.map (fun v => v.ann i.val)).sum) = 2 := by
    rw [← vertices_rank_eq_sum]
    exact hrank
  have hsum2 : ∑ i : Fin 8, 2 * (contr.map (fun v => v.cre i.val)).sum = 2 := by
    have hcongr : ∑ i : Fin 8, 2 * (contr.map (fun v => v.cre i.val)).sum =
        ∑ i : Fin 8, ((contr.map (fun v => v.cre i.val)).sum +
          (contr.map (fun v => v.ann i.val)).sum) := by
      apply Finset.sum_congr rfl
      intro i _
      rw [← hbal i]
      ring
    rw [hcongr]
    exact hsum
  rw [← Finset.mul_sum] at hsum2
  have hsum1 : ∑ i : Fin 8, (contr.map (fun v => v.cre i.val)).sum = 1 := by
    omega
  have hcre_le : (contr.map (fun v => v.cre s)).sum ≤ 1 := by
    have hle := @Finset.single_le_sum (Fin 8) ℕ _
      (fun i => (contr.map (fun v => v.cre i.val)).sum) Finset.univ
      (fun i _ => Nat.zero_le _) (Fin.mk s hmem) (Finset.mem_univ _)
    rw [hsum1] at hle
    exact hle
  have hbal_s : (contr.map (fun v => v.cre s)).sum =
      (contr.map (fun v => v.ann s)).sum := hbal ⟨s, hmem⟩
  have hcre_pos : 0 < (contr.map (fun v => v.cre s)).sum := by
    by_contra hz
    push_neg at hz
    rw [Nat.le_zero] at hz
    have hann_z : (contr.map (fun v => v.ann s)).sum = 0 := by
      rw [← hbal_s]
      exact hz
    rw [List.sum_eq_zero_iff] at hz hann_z
    have h1 : v.cre s = 0 := hz _ (List.mem_map_of_mem _ hv)
    have h2 : v.ann s = 0 := hann_z _ (List.mem_map_of_mem _ hv)
    omega
  have hcre1 : (contr.map (fun v => v.cre s)).sum = 1 := by omega
  exact ⟨hmem, hcre1, by rw [← hbal_s]; exact hcre1⟩

lemma vvtp_pos_type {S : ℕ} {ops : List DiagOperator} {s : ℕ}
    {creation : Bool} {vec : List DiagVertex} {vs : List ℕ}
    {offsets : List DiagVertex} {ps : List ℕ} {off' : List DiagVertex}
    (h : vvtpGo (opMapOf S ops) s creation vec vs offsets = some (ps, off'))
    {p : ℕ} (hp : p ∈ ps) :
    (((taggedSqops S ops).map Prod.snd).getD p dummySQ).type =
      (if creation then SQOperatorType.Creation
        else SQOperatorType.Annihilation) := by
  obtain ⟨-, hall⟩ := vvtpGo_spec _ _ _ _ _ _ _ _ h
  obtain ⟨q, hq⟩ := hall p hp
  exact (opMap_lookup_type S ops hq).2

lemma rank2_positions {S : ℕ} {ops : List DiagOperator}
    {c : List DiagVertex} {s : ℕ}
    {offsets off1 off2 : List DiagVertex} {posCre posAnn : List ℕ}
    (hs : vertices_space c = some s)
    (hbal : balancedContr c)
    (hrank : vertices_rank c = 2)
    (h1 : vertex_vec_to_pos (opMapOf S ops) c offsets true s =
      some (posCre, off1))
    (h2 : vertex_vec_to_pos (opMapOf S ops) c off1 false s =
      some (posAnn, off2)) :
    ∃ p q : ℕ, posCre = [p] ∧ posAnn = [q] ∧ p ≠ q := by
  obtain ⟨h8, hcre1, hann1⟩ := touched_space_legs hs hbal hrank
  unfold vertex_vec_to_pos at h1 h2
  obtain ⟨hl1, -⟩ := vvtpGo_spec _ _ _ _ _ _ _ _ h1
  obtain ⟨hl2, -⟩ := vvtpGo_spec _ _ _ _ _ _ _ _ h2
  have hcre : posCre.length = (c.map (fun v => v.cre s)).sum := by
    rw [hl1]
    exact congrArg List.sum
      (range_map_getD c DiagVertex.zero (fun x => DiagVertex.cre x s))
  have hann : posAnn.length = (c.map (fun v => v.ann s)).sum := by
    rw [hl2]
    exact congrArg List.sum
      (range_map_getD c DiagVertex.zero (fun x => DiagVertex.ann x s))
  obtain ⟨p, hp⟩ := List.length_eq_one.mp (hcre.trans hcre1)
  obtain ⟨q, hq⟩ := List.length_eq_one.mp (hann.trans hann1)
  refine ⟨p, q, hp, hq, ?_⟩
  intro hpq
  have ht1 := vvtp_pos_type h1 (by rw [hp]; exact List.mem_singleton_self p)
  have ht2 := vvtp_pos_type h2 (by rw [hq]; exact List.mem_singleton_self q)
  rw [hpq] at ht1
  exact absurd (ht1.symm.trans ht2) (by decide)

lemma evalContrStep_spec (osi : OSI) (ops : List DiagOperator)
    (st st1 : EvalState) (c : List DiagVertex)
    (hbal : balancedContr c)
    (h : evalContrStep osi (opMapOf osi.num_spaces ops)
      ((taggedSqops osi.num_spaces ops).map Prod.snd) st c = some st1) :
    ∃ r : ContrRec, st1.trace = st.trace ++ [r] ∧
      st1.unoccSign =
        (if claimFlip osi r then -st.unoccSign else st.unoccSign) ∧
      labelsOK osi r := by
  unfold evalContrStep at h
  split at h
  · exact absurd h (by simp)
  rename_i s hs
  split at h
  · exact absurd h (by simp)
  rename_i pr1 posCre off1 hc1
  split at h
  · exact absurd h (by simp)
  rename_i pr2 posAnn off2 hc2
  split at h
  case h_1 hst =>
    injection h with h
    subst h
    refine ⟨⟨s, vertices_rank c, posCre, posAnn, none⟩, rfl, ?_, ?_⟩
    · simp [claimFlip, hst]
    · intro hgen
      exact absurd hgen (by simp [hst])
  case h_2 hst =>
    injection h with h
    subst h
    refine ⟨⟨s, vertices_rank c, posCre, posAnn, none⟩, rfl, ?_, ?_⟩
    · simp [claimFlip, hst]
    · intro hgen
      exact absurd hgen (by simp [hst])
  case h_3 hst =>
    injection h with h
    subst h
    by_cases hr2 : vertices_rank c = 2
    · obtain ⟨p, q, hp, hq, hpq⟩ := rank2_positions hs hbal hr2 hc1 hc2
      subst hp hq
      by_cases hlt : p < q
      · refine ⟨⟨s, vertices_rank c, [p], [q],
          some (if vertices_rank c = 2 then
            (if List.headI [p] < List.headI [q] then "gamma1" else "eta1")
          else "lambda" ++ toString (vertices_rank c / 2))⟩, rfl, ?_, ?_⟩
        · show (if vertices_rank c = 2 ∧ ¬(List.headI [p] < List.headI [q])
            then -st.unoccSign else st.unoccSign) = _
          rw [if_neg (fun hh => hh.2 hlt)]
          simp [claimFlip, hst, Nat.lt_asymm hlt]
        · intro hgen
          refine ⟨fun _ => ⟨fun _ => ?_, fun hqp => absurd hqp
            (Nat.lt_asymm hlt)⟩, fun hne => absurd hr2 hne⟩
          show some (if vertices_rank c = 2 then
            (if p < q then "gamma1" else "eta1")
          else "lambda" ++ toString (vertices_rank c / 2)) = _
          rw [if_pos hr2, if_pos hlt]
      · have hqp : q < p :=
          Nat.lt_of_le_of_ne (Nat.not_lt.mp hlt) (Ne.symm hpq)
        refine ⟨⟨s, vertices_rank c, [p], [q],
          some (if vertices_rank c = 2 then
            (if List.headI [p] < List.headI [q] then "gamma1" else "eta1")
          else "lambda" ++ toString (vertices_rank c / 2))⟩, rfl, ?_, ?_⟩
        · show (if vertices_rank c = 2 ∧ ¬(List.headI [p] < List.headI [q])
            then -st.unoccSign else st.unoccSign) = _
          rw [if_pos ⟨hr2, hlt⟩]
          simp [claimFlip, hst, hr2, hqp]
        · intro hgen
          refine ⟨fun _ => ⟨fun hplt => absurd hplt hlt, fun _ => ?_⟩,
            fun hne => absurd hr2 hne⟩
          show some (if vertices_rank c = 2 then
            (if p < q then "gamma1" else "eta1")
          else "lambda" ++ toString (vertices_rank c / 2)) = _
          rw [if_pos hr2, if_neg hlt]
    · refine ⟨⟨s, vertices_rank c, posCre, posAnn,
        some (if vertices_rank c = 2 then
          (if posCre.headI < posAnn.headI then "gamma1" else "eta1")
        else "lambda" ++ toString (vertices_rank c / 2))⟩, rfl, ?_, ?_⟩
      · show (if vertices_rank c = 2 ∧ ¬(posCre.headI < posAnn.headI)
          then -st.unoccSign else st.unoccSign) = _
        rw [if_neg (fun hh => hr2 hh.1)]
        simp [claimFlip, hst, hr2]
      · intro hgen
        refine ⟨fun hr2' => absurd hr2' hr2, fun _ => ?_⟩
        show some (if vertices_rank c = 2 then
          (if posCre.headI < posAnn.headI then "gamma1" else "eta1")
        else "lambda" ++ toString (vertices_rank c / 2)) = _
        rw [if_neg hr2]

lemma evalFold_spec (osi : OSI) (ops : List DiagOperator) :
    ∀ (ctrs : List (List DiagVertex)) (st st' : EvalState),
    (∀ c ∈ ctrs, balancedContr c) →
    List.foldlM (evalContrStep osi (opMapOf osi.num_spaces ops)
      ((taggedSqops osi.num_spaces ops).map Prod.snd)) st ctrs = some st' →
    ∃ tr : List ContrRec, st'.trace = st.trace ++ tr ∧
      st'.unoccSign = st.unoccSign * (-1) ^ claimFlipCount osi tr ∧
      ∀ r ∈ tr, labelsOK osi r := by
  intro ctrs
  induction ctrs with
  | nil =>
    intro st st' hbal h
    have h' : (some st : Option EvalState) = some st' := h
    injection h' with h'
    subst h'
    exact ⟨[], by simp, by simp [claimFlipCount], by simp⟩
  | cons c cs ih =>
    intro st st' hbal h
    cases h1 : evalContrStep osi (opMapOf osi.num_spaces ops)
        ((taggedSqops osi.num_spaces ops).map Prod.snd) st c with
    | none =>
      have h' : (evalContrStep osi (opMapOf osi.num_spaces ops)
          ((taggedSqops osi.num_spaces ops).map Prod.snd) st c).bind
          (fun st1 => List.foldlM (evalContrStep osi
            (opMapOf osi.num_spaces ops)
            ((taggedSqops osi.num_spaces ops).map Prod.snd)) st1 cs) =
          some st' := h
      rw [h1] at h'
      exact absurd h' (by simp)
    | some st1 =>
      have h' : (evalContrStep osi (opMapOf osi.num_spaces ops)
          ((taggedSqops osi.num_spaces ops).map Prod.snd) st c).bind
          (fun st1 => List.foldlM (evalContrStep osi
            (opMapOf osi.num_spaces ops)
            ((taggedSqops osi.num_spaces ops).map Prod.snd)) st1 cs) =
          some st' := h
      rw [h1] at h'
      have h'' : List.foldlM (evalContrStep osi (opMapOf osi.num_spaces ops)
          ((taggedSqops osi.num_spaces ops).map Prod.snd)) st1 cs =
          some st' := h'
      obtain ⟨r, hr1, hr2, hr3⟩ := evalContrStep_spec osi ops st st1 c
        (hbal c (List.mem_cons_self _ _)) h1
      obtain ⟨tr, ht1, ht2, ht3⟩ := ih st1 st'
        (fun c' hc' => hbal c' (List.mem_cons_of_mem _ hc')) h''
      refine ⟨r :: tr, ?_, ?_, ?_⟩
      · rw [ht1, hr1, List.append_assoc, List.singleton_append]
      · rw [ht2, hr2]
        unfold claimFlipCount
        rw [List.countP_cons]
        cases hflip : claimFlip osi r with
        | false =>
          rw [if_neg (by simp [hflip]), if_neg (by simp [hflip]),
            Nat.add_zero]
        | true =>
          rw [if_pos (by simp [hflip]), if_pos (by simp [hflip]), pow_succ]
          ring
      · intro r' hr'
        rcases List.mem_cons.mp hr' with h2 | h2
        · subst h2
          exact hr3
        · exact ht3 r' h2

/-- C1: in `evaluate_contraction` the scalar sign multiplied into the
returned coefficient is `unoccupied_sign * permutation_sign(sign_order)`,
where `unoccupied_sign` starts at `+1` and picks up one `-1` factor per
unoccupied-space pair contraction and one per rank-2 general-space
contraction whose annihilator precedes its creator (labelled `eta1`);
a rank-2 general contraction whose creator precedes its annihilator is
labelled `gamma1`, and higher general contractions are labelled
`lambda(rank/2)`. -/
theorem evaluate_contraction_sign (osi : OSI) (ops : List DiagOperator)
    (contractions : List (List DiagVertex)) (factor : ℚ) (out : EvalResult)
    (hbal : ∀ c ∈ contractions, balancedContr c)
    (hout : evaluate_contraction osi ops contractions factor = some out) :
    out.unoccSign = (-1) ^ claimFlipCount osi out.trace ∧
    out.sign = out.unoccSign * permutation_sign out.signOrder ∧
    out.coeff = (out.sign : ℚ) *
      (ops.foldl (fun f op => f * op.factor) factor) *
      combinatorial_factor osi ops contractions ∧
    ∀ r ∈ out.trace, labelsOK osi r := by
  unfold evaluate_contraction at hout
  split at hout
  · exact absurd hout (by simp)
  rename_i st hf
  injection hout with hout
  subst hout
  obtain ⟨tr, ht, hu, hl⟩ := evalFold_spec osi ops contractions
    (evalInit osi ops) st hbal hf
  rw [show (evalInit osi ops).trace = [] from rfl, List.nil_append] at ht
  rw [show (evalInit osi ops).unoccSign = 1 from rfl, one_mul] at hu
  refine ⟨?_, rfl, rfl, ?_⟩
  · show st.unoccSign = (-1) ^ claimFlipCount osi st.trace
    rw [ht]
    exact hu
  · intro r hrr
    apply hl
    rw [← ht]
    exact hrr

/-- Witness: the `a b` string with its creator-annihilator general
contraction is balanced, evaluates to `wOutG`, and satisfies the sign and
label properties. -/
theorem evaluate_contraction_sign_witness :
    (∀ c ∈ wCtrG, balancedContr c) ∧
    evaluate_contraction wOsiG [wOpA, wOpB] wCtrG 1 = some wOutG ∧
    (wOutG.unoccSign = (-1) ^ claimFlipCount wOsiG wOutG.trace ∧
      wOutG.sign = wOutG.unoccSign * permutation_sign wOutG.signOrder ∧
      wOutG.coeff = (wOutG.sign : ℚ) *
        ([wOpA, wOpB].foldl (fun f op => f * op.factor) 1) *
        combinatorial_factor wOsiG [wOpA, wOpB] wCtrG ∧
      ∀ r ∈ wOutG.trace, labelsOK wOsiG r) :=
  ⟨by decide, by with_unfolding_all rfl,
    evaluate_contraction_sign wOsiG [wOpA, wOpB] wCtrG 1 wOutG
      (by decide) (by with_unfolding_all rfl)⟩

end Wicked